import Mathlib

/-!
Verification development for the SymSync mirroring engine (src/SymSync.py).

The filesystem is modelled as a tree of nodes; a path is a list of name
components of an absolute path (os.path.normpath-ed, split on the separator).
Symbolic links store the absolute target path exactly as the program wrote it
(`mklink` stores the given text) together with the directory flag
(`mklink /D` vs plain `mklink`).

Path resolution mirrors `os.path`: `lstat`-like lookups resolve links in all
intermediate components but not the final one; `stat`-like lookups
(`os.path.isdir`, `os.path.exists`, `os.listdir`) also resolve the final
component.  Resolution follows a bounded number of link hops, as the host OS
does (Windows caps symlink reparse chains; a cycle yields an error, which the
Python wrappers surface as False / not-found).
-/

namespace SymSync

abbrev FPath := List String

inductive FSTree where
  | file : FSTree
  | link (target : FPath) (isDir : Bool) : FSTree
  | dir (children : List (String × FSTree)) : FSTree

namespace FSTree

mutual

def beq : FSTree → FSTree → Bool
  | .file, .file => true
  | .link t b, .link t2 b2 => t == t2 && b == b2
  | .dir cs, .dir cs2 => beqChildren cs cs2
  | _, _ => false

def beqChildren : List (String × FSTree) → List (String × FSTree) → Bool
  | [], [] => true
  | (n, t) :: r, (n2, t2) :: r2 => n == n2 && beq t t2 && beqChildren r r2
  | _, _ => false

end

mutual

def beq_refl : ∀ a : FSTree, beq a a = true
  | .file => rfl
  | .link t b => by simp [beq]
  | .dir cs => by simpa [beq] using beqChildren_refl cs

def beqChildren_refl : ∀ cs : List (String × FSTree), beqChildren cs cs = true
  | [] => rfl
  | (n, t) :: r => by simp [beqChildren, beq_refl t, beqChildren_refl r]

end

mutual

def eq_of_beq : ∀ a b : FSTree, beq a b = true → a = b
  | .file, .file, _ => rfl
  | .link t x, .link t2 x2, h => by
    simp only [beq, Bool.and_eq_true, beq_iff_eq] at h
    simp [h.1, h.2]
  | .dir cs, .dir cs2, h => by
    have := eqChildren_of_beq cs cs2 (by simpa [beq] using h)
    simp [this]
  | .file, .link _ _, h => by simp [beq] at h
  | .file, .dir _, h => by simp [beq] at h
  | .link _ _, .file, h => by simp [beq] at h
  | .link _ _, .dir _, h => by simp [beq] at h
  | .dir _, .file, h => by simp [beq] at h
  | .dir _, .link _ _, h => by simp [beq] at h

def eqChildren_of_beq :
    ∀ cs cs2 : List (String × FSTree), beqChildren cs cs2 = true → cs = cs2
  | [], [], _ => rfl
  | (n, t) :: r, (n2, t2) :: r2, h => by
    simp only [beqChildren, Bool.and_eq_true, beq_iff_eq] at h
    have h1 := eq_of_beq t t2 h.1.2
    have h2 := eqChildren_of_beq r r2 h.2
    simp [h.1.1, h1, h2]
  | [], _ :: _, h => by simp [beqChildren] at h
  | _ :: _, [], h => by simp [beqChildren] at h

end

instance : DecidableEq FSTree := fun a b =>
  if h : beq a b = true then isTrue (eq_of_beq a b h)
  else isFalse (fun he => h (he ▸ beq_refl a))

/-- First child with the given name (directory entries). -/
def lookupChild : List (String × FSTree) → String → Option FSTree
  | [], _ => none
  | (n, t) :: rest, c => if n = c then some t else lookupChild rest c

/-- Replace the first child with the given name. -/
def setChild : List (String × FSTree) → String → FSTree → List (String × FSTree)
  | [], _, _ => []
  | (n, t) :: rest, c, v => if n = c then (c, v) :: rest else (n, t) :: setChild rest c v

/-- Remove the first child with the given name. -/
def eraseChild : List (String × FSTree) → String → List (String × FSTree)
  | [], _ => []
  | (n, t) :: rest, c => if n = c then rest else (n, t) :: eraseChild rest c

/-- Purely structural lookup: walks real directories only, never resolves a
link in an intermediate position (such a walk returns `none`). -/
def getReal : FSTree → FPath → Option FSTree
  | t, [] => some t
  | .dir cs, c :: rest =>
    match lookupChild cs c with
    | some child => getReal child rest
    | none => none
  | _, _ => none

end FSTree

/-- The OS bounds the number of symlink hops a single resolution may follow
(63 reparse points on Windows); past the bound resolution errors out. -/
def MAX_HOPS : Nat := 64

/-- Canonicalisation: walk `p` from the root, resolving every link met in an
intermediate component (and, when `followLast` is true, also a link in the
final component) by restarting the walk at the link's absolute target.
Returns the canonical link-free path of the designated entry: its parent
chain consists of real directories, so `getReal` applies to the result.
`acc` is the canonical path of `cur`. -/
def canonAux (root : FSTree) : Nat → FSTree → FPath → FPath → Bool → Option FPath
  | _, _, acc, [], _ => some acc
  | fuel, cur, acc, c :: rest, followLast =>
    match cur with
    | .dir cs =>
      match FSTree.lookupChild cs c with
      | none => none
      | some child =>
        match child with
        | .link tgt _ =>
          if rest = [] ∧ followLast = false then some (acc ++ [c])
          else
            match fuel with
            | 0 => none
            | fuel' + 1 => canonAux root fuel' root [] (tgt ++ rest) followLast
        | _ => canonAux root fuel child (acc ++ [c]) rest followLast
    | _ => none
termination_by fuel _ _ p _ => (fuel, p.length)

def canon (fs : FSTree) (p : FPath) (followLast : Bool) : Option FPath :=
  canonAux fs MAX_HOPS fs [] p followLast

/-- Node designated by `p` without dereferencing a final link (os.lstat). -/
def lstatNode (fs : FSTree) (p : FPath) : Option FSTree :=
  (canon fs p false).bind (fs.getReal ·)

/-- Node designated by `p`, final link dereferenced (os.stat). -/
def statNode (fs : FSTree) (p : FPath) : Option FSTree :=
  (canon fs p true).bind (fs.getReal ·)

/-- os.path.lexists: the entry itself exists (a broken link counts). -/
def lexists (fs : FSTree) (p : FPath) : Bool :=
  (lstatNode fs p).isSome

/-- os.path.exists: the entry exists after dereferencing. -/
def existsPath (fs : FSTree) (p : FPath) : Bool :=
  (statNode fs p).isSome

/-- Kind of a node (merge branches on os.path.isdir). -/
def isDirNode : FSTree → Bool
  | .dir _ => true
  | _ => false

def isLinkNode : FSTree → Bool
  | .link _ _ => true
  | _ => false

/-- os.path.isdir: resolves and checks for a directory. -/
def isdir (fs : FSTree) (p : FPath) : Bool :=
  match statNode fs p with
  | some t => isDirNode t
  | none => false

/-- os.path.islink. -/
def islink (fs : FSTree) (p : FPath) : Bool :=
  match lstatNode fs p with
  | some t => isLinkNode t
  | none => false

/-- os.readlink. -/
def readlink (fs : FSTree) (p : FPath) : Option FPath :=
  match lstatNode fs p with
  | some t =>
    match t with
    | .link tgt _ => some tgt
    | _ => none
  | none => none

/-- os.listdir: names of the entries of the directory at `p` (dereferenced),
in directory order; `none` models the raised OSError for a non-directory. -/
def listdir (fs : FSTree) (p : FPath) : Option (List String) :=
  match statNode fs p with
  | some t =>
    match t with
    | .dir cs => some (cs.map (·.1))
    | _ => none
  | none => none

/-- Apply `f` to the node at canonical (link-free) path `p`. -/
def modifyReal (f : FSTree → Option FSTree) : FSTree → FPath → Option FSTree
  | t, [] => f t
  | t, c :: rest =>
    match t with
    | .dir cs =>
      match FSTree.lookupChild cs c with
      | some child =>
        (modifyReal f child rest).map (fun child' => .dir (FSTree.setChild cs c child'))
      | none => none
    | _ => none

/-! ## Shell commands run through execute_admin_command

The engine mutates the filesystem only through `mklink [/D]`, `rmdir` and
`del /f`.  `execute_admin_command` reports success as a Bool (False when the
command wrote to stderr); failures are absorbed by the callers. -/

inductive Cmd where
  | mkLink (linkPath targetPath : FPath) (isDir : Bool)
  | rmDir (p : FPath)
  | del (p : FPath)
deriving DecidableEq, Repr

/-- Shell `mklink [/D] link target`: fails when the link path is already occupied
(even by a broken link) or its parent does not resolve to a directory; the
target is not checked.  The stored target is the path text as given. -/
def mklinkOp (fs : FSTree) (linkPath targetPath : FPath) (isDir : Bool) :
    Option FSTree :=
  match linkPath.getLast? with
  | none => none
  | some name =>
    match canon fs linkPath.dropLast true with
    | none => none
    | some pp =>
      match fs.getReal pp with
      | none => none
      | some t =>
        match t with
        | .dir cs =>
          match FSTree.lookupChild cs name with
          | some _ => none
          | none =>
            modifyReal (fun t =>
              match t with
              | .dir cs' => some (.dir (cs' ++ [(name, .link targetPath isDir)]))
              | _ => none) fs pp
        | _ => none

/-- Remove the entry at `p` from its (canonical) parent directory, without
dereferencing the entry itself. -/
def removeEntry (fs : FSTree) (p : FPath) : Option FSTree :=
  match p.getLast? with
  | none => none
  | some name =>
    match canon fs p.dropLast true with
    | none => none
    | some pp =>
      modifyReal (fun t =>
        match t with
        | .dir cs =>
          match FSTree.lookupChild cs name with
          | some _ => some (.dir (FSTree.eraseChild cs name))
          | none => none
        | _ => none) fs pp

/-- Shell `rmdir p`: removes a directory symlink (the link itself, never its
target's contents) or an empty real directory; fails on files, file-type
links and non-empty real directories. -/
def rmdirOp (fs : FSTree) (p : FPath) : Option FSTree :=
  match lstatNode fs p with
  | none => none
  | some t =>
    match t with
    | .link _ b => if b then removeEntry fs p else none
    | .dir cs => if cs.isEmpty then removeEntry fs p else none
    | .file => none

/-- Shell `del /f p`: removes a real file or a file-type symlink (the link itself);
fails on directories and directory-type links. -/
def delOp (fs : FSTree) (p : FPath) : Option FSTree :=
  match lstatNode fs p with
  | none => none
  | some t =>
    match t with
    | .file => removeEntry fs p
    | .link _ b => if b then none else removeEntry fs p
    | .dir _ => none

/-- execute_admin_command: run the command, report success as a Bool; a
failed command leaves the filesystem unchanged. -/
def execCmd (fs : FSTree) : Cmd → FSTree × Bool
  | .mkLink l t d =>
    match mklinkOp fs l t d with
    | some fs' => (fs', true)
    | none => (fs, false)
  | .rmDir p =>
    match rmdirOp fs p with
    | some fs' => (fs', true)
    | none => (fs, false)
  | .del p =>
    match delOp fs p with
    | some fs' => (fs', true)
    | none => (fs, false)

/-- os.makedirs: create every missing component of `p` as a real directory,
following links in existing components; raises (`none`) when a component
exists as a non-directory (including a broken link) or when the full path
already exists. -/
def makedirsAux (fs : FSTree) (base : FPath) : List String → Option FSTree
  | [] => none
  | [c] =>
    match fs.getReal base with
    | none => none
    | some t =>
      match t with
      | .dir cs =>
        match FSTree.lookupChild cs c with
        | some _ => none
        | none => modifyReal (fun t =>
            match t with
            | .dir cs' => some (.dir (cs' ++ [(c, .dir [])]))
            | _ => none) fs base
      | _ => none
  | c :: rest@(_ :: _) =>
    match fs.getReal base with
    | none => none
    | some t =>
      match t with
      | .dir cs =>
        match FSTree.lookupChild cs c with
        | some _ =>
          match canon fs (base ++ [c]) true with
          | some cc =>
            match fs.getReal cc with
            | none => none
            | some t2 =>
              match t2 with
              | .dir _ => makedirsAux fs cc rest
              | _ => none
          | none => none
        | none =>
          match modifyReal (fun t =>
              match t with
              | .dir cs' => some (.dir (cs' ++ [(c, .dir [])]))
              | _ => none) fs base with
          | some fs' => makedirsAux fs' (base ++ [c]) rest
          | none => none
      | _ => none

def makedirs (fs : FSTree) (p : FPath) : Option FSTree :=
  makedirsAux fs [] p

/-! ## merge_directory_contents

`merge_directory_contents(source_dir, target_dir, update_status)` from
src/SymSync.py, with a fuel parameter for the unbounded recursion (the source
guards neither against symlink cycles nor aliasing, so the recursion depth is
not structurally bounded; `none` models a run that does not complete).
The result distinguishes a raised OSError (`.error`, carrying the partially
mutated state, as exceptions propagate after partial work) from a normal
return of the success count.  `update_status` is threaded through as the list
of emitted messages; merge itself never emits one. -/

abbrev MergeRes := Except FSTree (FSTree × Nat × List String)

mutual

def mergeFuel : Nat → FSTree → FPath → FPath → Option MergeRes
  | 0, _, _, _ => none
  | fuel + 1, fs, source_dir, target_dir =>
    let actual_target_dir :=
      if islink fs target_dir then (readlink fs target_dir).getD target_dir
      else target_dir
    let step1 : Option FSTree :=
      if existsPath fs actual_target_dir then some fs else makedirs fs actual_target_dir
    match step1 with
    | none => some (.error fs)
    | some fs1 =>
      match listdir fs1 source_dir with
      | none => some (.error fs1)
      | some items => mergeItems fuel source_dir actual_target_dir fs1 items
termination_by fuel _ _ _ => (fuel, 0)

def mergeItems : Nat → FPath → FPath → FSTree → List String → Option MergeRes
  | _, _, _, fs, [] => some (.ok (fs, 0, []))
  | fuel, source_dir, actual, fs, item :: rest =>
    let source_path := source_dir ++ [item]
    let symlink_path := actual ++ [item]
    if lexists fs symlink_path then
      if isdir fs source_path && isdir fs symlink_path then
        match mergeFuel fuel fs source_path symlink_path with
        | none => none
        | some r =>
          match r with
          | .error e => some (.error e)
          | .ok (fs1, c, msgs) =>
            match mergeItems fuel source_dir actual fs1 rest with
            | none => none
            | some r2 =>
              match r2 with
              | .error e => some (.error e)
              | .ok (fs2, c2, msgs2) => some (.ok (fs2, c + c2, msgs ++ msgs2))
      else mergeItems fuel source_dir actual fs rest
    else
      let (fs1, ok) := execCmd fs (.mkLink symlink_path source_path (isdir fs source_path))
      match mergeItems fuel source_dir actual fs1 rest with
      | none => none
      | some r2 =>
        match r2 with
        | .error e => some (.error e)
        | .ok (fs2, c2, msgs2) =>
          some (.ok (fs2, (if ok then 1 else 0) + c2, msgs2))
termination_by fuel _ _ _ items => (fuel, items.length + 1)

end

/-! ## FolderChangeHandler

Filesystem notifications delivered by the watchdog observer.  A handler's
state is the watched `source` root (normalised) and the configuration's
`target`; its effect is the new filesystem, the messages sent to the status
callback, and the shell commands issued (in order). -/

structure FsEvent where
  src_path : FPath
  is_directory : Bool
deriving DecidableEq, Repr

structure MovedEvent where
  src_path : FPath
  dest_path : FPath
  is_directory : Bool
deriving DecidableEq, Repr

/-- os.path.basename. -/
def lastName (p : FPath) : String := p.getLastD ""

/-- Path rendered back to text (for status messages). -/
def pathText (p : FPath) : String := String.intercalate "\\" p

/-- Case-insensitive component comparison (Windows paths). -/
def eqCI (a b : String) : Bool := a.toLower == b.toLower

/-- FolderChangeHandler._is_direct_child: the path has exactly one more
component than the source root and agrees with it case-insensitively on the
shared components. -/
def isDirectChild (source p : FPath) : Bool :=
  p.length == source.length + 1 &&
    (List.zip source p).all fun ab => eqCI ab.1 ab.2

/-- FolderChangeHandler.on_created.  `none` models a run whose inner merge
raised or failed to complete (the exception escapes the handler). -/
def onCreated (fuel : Nat) (source target : FPath) (fs : FSTree) (ev : FsEvent) :
    Option (FSTree × List String × List Cmd) :=
  if ¬ isDirectChild source ev.src_path then some (fs, [], [])
  else
    let name := lastName ev.src_path
    let target_path := target ++ [name]
    if lexists fs target_path && ev.is_directory && isdir fs target_path then
      match mergeFuel fuel fs ev.src_path target_path with
      | none => none
      | some r =>
        match r with
        | .ok (fs', _, msgs) => some (fs', ("Merging: " ++ name) :: msgs, [])
        | .error _ => none
    else
      if lexists fs target_path then some (fs, [], [])
      else
        let cmd := Cmd.mkLink target_path ev.src_path ev.is_directory
        let (fs', _) := execCmd fs cmd
        some (fs', ["Created: " ++ name], [cmd])

/-- FolderChangeHandler.on_deleted. -/
def onDeleted (source target : FPath) (fs : FSTree) (ev : FsEvent) :
    FSTree × List String × List Cmd :=
  if ¬ isDirectChild source ev.src_path then (fs, [], [])
  else
    let name := lastName ev.src_path
    let target_path := target ++ [name]
    if lexists fs target_path then
      let cmd := if isdir fs target_path then Cmd.rmDir target_path else Cmd.del target_path
      let (fs', _) := execCmd fs cmd
      (fs', ["Removed: " ++ name], [cmd])
    else (fs, [], [])

/-- FolderChangeHandler.on_modified (files only: remove, then re-link). -/
def onModified (source target : FPath) (fs : FSTree) (ev : FsEvent) :
    FSTree × List String × List Cmd :=
  if ¬ isDirectChild source ev.src_path then (fs, [], [])
  else if ev.is_directory then (fs, [], [])
  else
    let name := lastName ev.src_path
    let target_path := target ++ [name]
    if lexists fs target_path then
      let cmd1 := if isdir fs target_path then Cmd.rmDir target_path else Cmd.del target_path
      let (fs1, _) := execCmd fs cmd1
      let cmd2 := Cmd.mkLink target_path ev.src_path false
      let (fs2, _) := execCmd fs1 cmd2
      (fs2, ["Updated: " ++ name], [cmd1, cmd2])
    else (fs, [], [])

/-- FolderChangeHandler.on_moved: deletion half at the old name when it is a
direct child, creation/merge half at the new name when it is. -/
def onMoved (fuel : Nat) (source target : FPath) (fs : FSTree) (ev : MovedEvent) :
    Option (FSTree × List String × List Cmd) :=
  let src_is_direct := isDirectChild source ev.src_path
  let dest_is_direct := isDirectChild source ev.dest_path
  if ¬ (src_is_direct || dest_is_direct) then some (fs, [], [])
  else
    let old_target := target ++ [lastName ev.src_path]
    let new_target := target ++ [lastName ev.dest_path]
    let step1 : FSTree × List Cmd :=
      if src_is_direct && lexists fs old_target then
        let cmd := if isdir fs old_target then Cmd.rmDir old_target else Cmd.del old_target
        ((execCmd fs cmd).1, [cmd])
      else (fs, [])
    let fs1 := step1.1
    let cmds1 := step1.2
    if dest_is_direct then
      if lexists fs1 new_target && ev.is_directory && isdir fs1 new_target then
        match mergeFuel fuel fs1 ev.dest_path new_target with
        | none => none
        | some r =>
          match r with
          | .ok (fs2, _, msgs) =>
            some (fs2, ("Merging: " ++ lastName ev.dest_path) :: msgs, cmds1)
          | .error _ => none
      else if lexists fs1 new_target then some (fs1, [], cmds1)
      else
        let cmd := Cmd.mkLink new_target ev.dest_path ev.is_directory
        let (fs2, _) := execCmd fs1 cmd
        some (fs2, ["Moved: " ++ lastName ev.dest_path], cmds1 ++ [cmd])
    else some (fs1, [], cmds1)

/-- create_symlinks_for_source: initial merge plus observer creation; returns
the observer handle (`none` inner value = no observer, source missing).  An
outer `none` models a raised exception or a merge that did not complete. -/
def createSymlinksForSource (fuel : Nat) (fs : FSTree) (source target : FPath) :
    Option (FSTree × List String × Option Unit) :=
  if ¬ existsPath fs source then
    some (fs, ["Source not found: " ++ pathText source], none)
  else
    let step : Option FSTree :=
      if existsPath fs target then some fs else makedirs fs target
    match step with
    | none => none
    | some fs1 =>
      match mergeFuel fuel fs1 source target with
      | none => none
      | some r =>
        match r with
        | .error _ => none
        | .ok (fs2, n, msgs) =>
          some (fs2,
            msgs ++ ["🔗 Linked " ++ toString n ++ " items from " ++ lastName source],
            some ())

/-! ## LinkConfiguration -/

/-- One link configuration: N sources mirrored into one target.  The sources
map stores the live observer handle per source (insertion-ordered dict). -/
structure LinkConfiguration where
  id : String
  name : String
  target_path : FPath
  sources : List (FPath × Option Unit)
  is_active : Bool
  status : String
  logs : List String
  rescan_interval : Int
  last_rescan : Int
deriving DecidableEq, Repr

/-- LinkConfiguration.__init__: `link_id or str(uuid.uuid4())[:8]` — a missing
or empty (falsy) id is replaced by a freshly generated one, supplied here as
`freshId`. -/
def mkLinkConfiguration (freshId : String) (name : String) (target_path : FPath)
    (link_id : Option String) : LinkConfiguration :=
  { id := match link_id with
      | some s => if s = "" then freshId else s
      | none => freshId
    name := name
    target_path := target_path
    sources := []
    is_active := false
    status := "Not configured"
    logs := []
    rescan_interval := 10
    last_rescan := 0 }

/-- Python dict assignment `m[k] = v`: replace in place, or append. -/
def dictSet (m : List (FPath × Option Unit)) (k : FPath) (v : Option Unit) :
    List (FPath × Option Unit) :=
  if m.any (·.1 == k) then m.map (fun kv => if kv.1 == k then (k, v) else kv)
  else m ++ [(k, v)]

/-- The serialised record shape; a missing key is `none` (dict.get). -/
structure LinkData where
  id : Option String
  name : Option String
  target_path : Option FPath
  sources : Option (List FPath)
  is_active : Option Bool
  logs : Option (List String)
  rescan_interval : Option Int
deriving DecidableEq, Repr

/-- Python `xs[-50:]`. -/
def lastN (n : Nat) (xs : List String) : List String := xs.drop (xs.length - n)

/-- LinkConfiguration.to_dict (observers are dropped; only source keys are
kept; logs truncated to the most recent 50). -/
def LinkConfiguration.to_dict (c : LinkConfiguration) : LinkData :=
  { id := some c.id
    name := some c.name
    target_path := some c.target_path
    sources := some (c.sources.map (·.1))
    is_active := some c.is_active
    logs := some (lastN 50 c.logs)
    rescan_interval := some c.rescan_interval }

/-- LinkConfiguration.from_dict. -/
def LinkConfiguration.from_dict (freshId : String) (d : LinkData) : LinkConfiguration :=
  let link := mkLinkConfiguration freshId (d.name.getD "New Link")
    (d.target_path.getD []) d.id
  let link := { link with
    sources := (d.sources.getD []).foldl (fun acc s => dictSet acc s none) [] }
  { link with
    is_active := d.is_active.getD false
    logs := d.logs.getD []
    rescan_interval := d.rescan_interval.getD 10 }

/-! ## SymSyncApp operations (the engine-facing, non-GUI parts) -/

def fmtLog (ts msg : String) : String := "[" ++ ts ++ "] " ++ msg

/-- The core of SymSyncApp.update_link_status applied to one configuration:
set the status, append the timestamped entry, evict the oldest entry when the
log exceeds 50. -/
def pushLog (c : LinkConfiguration) (ts msg : String) : LinkConfiguration :=
  let logs := c.logs ++ [fmtLog ts msg]
  { c with
    status := msg
    logs := if 50 < logs.length then logs.drop 1 else logs }

/-- SymSyncApp.update_link_status: no-op when the id is unknown. -/
def updateLinkStatus (links : List LinkConfiguration) (lid : String) (ts msg : String) :
    List LinkConfiguration :=
  if links.any (·.id == lid) then
    links.map fun l => if l.id == lid then pushLog l ts msg else l
  else links

/-- Case folding used with os.path.normcase on Windows. -/
def normcase (p : FPath) : FPath := p.map (·.toLower)

/-- SymSyncApp.browse_target, after the dialog returned `directory`: reject
(warning box, no mutation) when another configuration already uses the same
normalised target; otherwise store the directory on the selected
configuration.  `none` models the KeyError on an unknown selected id. -/
def browseTarget (links : List LinkConfiguration) (selectedId : String)
    (directory : FPath) : Option (List LinkConfiguration) :=
  let normalized_dir := normcase directory
  if links.any fun l =>
      !(l.id == selectedId) && !l.target_path.isEmpty &&
        normcase l.target_path == normalized_dir then
    some links
  else if selectedId = "" then some links
  else if links.any (·.id == selectedId) then
    some (links.map fun l =>
      if l.id == selectedId then { l with target_path := directory } else l)
  else none

/-- SymSyncApp.add_source, after the dialog returned `directory`.  The Bool
is true when the call ran to completion: adding to an active configuration
reaches `create_symlinks_for_source(directory, link.target_path,
self.update_status)`, and SymSyncApp defines no attribute `update_status`,
so the attribute lookup raises AttributeError right after the source was
inserted with no observer (the GUI event loop swallows the exception). -/
def addSource (links : List LinkConfiguration) (selectedId : String)
    (directory : FPath) : Option (List LinkConfiguration × Bool) :=
  if selectedId = "" then some (links, true)
  else
    match links.find? (·.id == selectedId) with
    | none => none
    | some link =>
      if link.target_path.isEmpty then some (links, true)
      else if normcase directory == normcase link.target_path then some (links, true)
      else if link.sources.any (fun s => normcase s.1 == normcase directory) then
        some (links, true)
      else
        let link1 := { link with sources := link.sources ++ [(directory, none)] }
        let links1 := links.map fun l => if l.id == selectedId then link1 else l
        if link1.is_active then some (links1, false) else some (links1, true)

/-- The source loop of SymSyncApp.start_link: run
create_symlinks_for_source for each source, feed its messages through the
update callback (update_link_status on this configuration), and store the
observer when one was created. -/
def startSources (fuel : Nat) (ts : String) (target : FPath) :
    FSTree → LinkConfiguration → List FPath → Option (FSTree × LinkConfiguration)
  | fs, l, [] => some (fs, l)
  | fs, l, src :: rest =>
    match createSymlinksForSource fuel fs src target with
    | none => none
    | some (fs', msgs, obs) =>
      let l := msgs.foldl (fun acc m => pushLog acc ts m) l
      let l := match obs with
        | some _ => { l with sources := dictSet l.sources src (some ()) }
        | none => l
      startSources fuel ts target fs' l rest

/-- SymSyncApp.start_link for the selected configuration.  `none` models the
KeyError on an unknown id or an escaped exception / non-completing merge. -/
def startLink (fuel : Nat) (links : List LinkConfiguration) (selectedId : String)
    (fs : FSTree) (ts : String) : Option (List LinkConfiguration × FSTree) :=
  if selectedId = "" then some (links, fs)
  else
    match links.find? (·.id == selectedId) with
    | none => none
    | some link =>
      if link.target_path.isEmpty then some (links, fs)
      else if link.sources.isEmpty then some (links, fs)
      else if link.is_active then some (links, fs)
      else
        let link := pushLog link ts "⏳ Starting..."
        match startSources fuel ts link.target_path fs link (link.sources.map (·.1)) with
        | none => none
        | some (fs', link') =>
          let link' := { link' with is_active := true }
          let link' := pushLog link' ts
            ("✅ Watching " ++ toString link'.sources.length ++ " source(s)")
          some (links.map (fun l => if l.id == selectedId then link' else l), fs')

/-- SymSyncApp.cleanup_source_symlinks: iterate the target's entries; for
each symlink whose destination is prefixed by the removed source's path,
remove it (rmdir or del /f by the entry's resolved type); all errors are
swallowed.  The Python code compares the normcased path *strings* with
str.startswith; this is modelled componentwise. -/
def cleanupItems (source target : FPath) : FSTree → List String → FSTree
  | fs, [] => fs
  | fs, item :: rest =>
    let full := target ++ [item]
    let fs' :=
      if islink fs full then
        match readlink fs full with
        | some lt =>
          if (normcase source).isPrefixOf (normcase lt) then
            (execCmd fs (if isdir fs full then .rmDir full else .del full)).1
          else fs
        | none => fs
      else fs
    cleanupItems source target fs' rest

def cleanupSourceSymlinks (fs : FSTree) (source target : FPath) : FSTree :=
  match listdir fs target with
  | none => fs
  | some items => cleanupItems source target fs items

/-! ## Reconciliation loop (SymSyncApp.rescan_active_links, one pass) -/

def restoreMsg (c : Nat) : String :=
  "♻️ Rescan restored " ++ toString c ++ " item(s)"

/-- The per-source loop of one rescan iteration for one configuration: a
merge that raises is caught and the loop continues with the next source; a
restore summary is logged when the merge created items. -/
def rescanSources (fuel : Nat) (ts : String) (links : List LinkConfiguration) :
    FSTree → LinkConfiguration → List FPath → Option (FSTree × LinkConfiguration)
  | fs, l, [] => some (fs, l)
  | fs, l, src :: rest =>
    if (links.find? (·.id == l.id)).isNone then some (fs, l)
    else
      match mergeFuel fuel fs src l.target_path with
      | none => none
      | some r =>
        match r with
        | .error fs' => rescanSources fuel ts links fs' l rest
        | .ok (fs', c, msgs) =>
          let l := msgs.foldl (fun acc m => pushLog acc ts m) l
          let l := if 0 < c then pushLog l ts (restoreMsg c) else l
          rescanSources fuel ts links fs' l rest

/-- One configuration in one pass: skipped when inactive or when the
interval has not yet elapsed; otherwise stamp `last_rescan := now` and merge
every source into the target. -/
def rescanLinkStep (fuel : Nat) (now : Int) (ts : String)
    (links : List LinkConfiguration) (fs : FSTree) (l : LinkConfiguration) :
    Option (LinkConfiguration × FSTree) :=
  if ¬ l.is_active then some (l, fs)
  else if now - l.last_rescan < l.rescan_interval then some (l, fs)
  else
    let l := { l with last_rescan := now }
    match rescanSources fuel ts links fs l (l.sources.map (·.1)) with
    | none => none
    | some (fs', l') => some (l', fs')

def rescanPassAux (fuel : Nat) (now : Int) (ts : String)
    (links : List LinkConfiguration) :
    FSTree → List LinkConfiguration → Option (List LinkConfiguration × FSTree)
  | fs, [] => some ([], fs)
  | fs, l :: rest =>
    match rescanLinkStep fuel now ts links fs l with
    | none => none
    | some (l', fs') =>
      match rescanPassAux fuel now ts links fs' rest with
      | none => none
      | some (rest', fs'') => some (l' :: rest', fs'')

/-- One full pass of the background rescan loop over all configurations. -/
def rescanPass (fuel : Nat) (now : Int) (ts : String)
    (links : List LinkConfiguration) (fs : FSTree) :
    Option (List LinkConfiguration × FSTree) :=
  rescanPassAux fuel now ts links fs links

/-! ## Auxiliary structural notions used by the theorems -/

/-- Structural replacement of the subtree at a canonical link-free path
(identity when the path does not designate a node). -/
def setReal : FSTree → FPath → FSTree → FSTree
  | _, [], v => v
  | .dir cs, c :: rest, v =>
    match FSTree.lookupChild cs c with
    | some child => .dir (FSTree.setChild cs c (setReal child rest v))
    | none => .dir cs
  | t, _ :: _, _ => t

mutual

/-- No symlink anywhere in the tree. -/
def linkFree : FSTree → Bool
  | .file => true
  | .link _ _ => false
  | .dir cs => linkFreeChildren cs

def linkFreeChildren : List (String × FSTree) → Bool
  | [] => true
  | (_, t) :: rest => linkFree t && linkFreeChildren rest

end

mutual

/-- Directory listings carry no duplicate names (true of any real
filesystem state). -/
def wfTree : FSTree → Bool
  | .file => true
  | .link _ _ => true
  | .dir cs => (cs.map (·.1)).Nodup && wfChildren cs

def wfChildren : List (String × FSTree) → Bool
  | [] => true
  | (_, t) :: rest => wfTree t && wfChildren rest

end

mutual

/-- Height of the source tree: bounds the merge recursion depth. -/
def depth : FSTree → Nat
  | .file => 0
  | .link _ _ => 0
  | .dir cs => depthChildren cs + 1

def depthChildren : List (String × FSTree) → Nat
  | [] => 0
  | (_, t) :: rest => max (depth t) (depthChildren rest)

end

mutual

/-- The effect of one completed merge run, computed structurally on the two
subtrees involved, for a state in which all resolution is structural: the
new target subtree and the success count.  `sp` is the absolute path of the
source subtree (created links point there). -/
def mergeSpec (sp : FPath) : FSTree → FSTree → FSTree × Nat
  | .dir scs, .dir tcs =>
    let r := mergeSpecChildren sp scs tcs
    (.dir r.1, r.2)
  | _, t => (t, 0)

def mergeSpecChildren (sp : FPath) :
    List (String × FSTree) → List (String × FSTree) →
    List (String × FSTree) × Nat
  | [], tcs => (tcs, 0)
  | (n, c) :: rest, tcs =>
    match FSTree.lookupChild tcs n with
    | none =>
      let r := mergeSpecChildren sp rest (tcs ++ [(n, .link (sp ++ [n]) (isDirNode c))])
      (r.1, 1 + r.2)
    | some tc =>
      if isDirNode c && isDirNode tc then
        let m := mergeSpec (sp ++ [n]) c tc
        let r := mergeSpecChildren sp rest (FSTree.setChild tcs n m.1)
        (r.1, m.2 + r.2)
      else mergeSpecChildren sp rest tcs

end

/-- Looked-up children are structurally smaller than the listing. -/
def sizeOf_lookupChild :
    ∀ (cs : List (String × FSTree)) (n : String) (c : FSTree),
      FSTree.lookupChild cs n = some c → sizeOf c < sizeOf cs
  | (m, t) :: rest, n, c, h => by
    by_cases hm : m = n
    · simp only [FSTree.lookupChild, hm, if_pos rfl] at h
      cases h
      simp only [List.cons.sizeOf_spec, Prod.mk.sizeOf_spec]
      omega
    · simp only [FSTree.lookupChild, hm, if_neg hm] at h
      have := sizeOf_lookupChild rest n c h
      simp only [List.cons.sizeOf_spec]
      omega

/-- State extension: everything reachable in `a` is still reachable in `b`,
with links unchanged and directories possibly holding extra entries.  The
engine's merge path only ever adds entries, so it takes states up this
relation. -/
def Ext : FSTree → FSTree → Prop
  | .file, t2 => t2 = .file
  | .link t b, t2 => t2 = .link t b
  | .dir cs, t2 =>
    ∃ cs2, t2 = .dir cs2 ∧ ∀ n c, FSTree.lookupChild cs n = some c →
      ∃ c2, FSTree.lookupChild cs2 n = some c2 ∧ Ext c c2
termination_by t _ => sizeOf t
decreasing_by
  have := sizeOf_lookupChild cs n c (by assumption)
  simp only [FSTree.dir.sizeOf_spec]
  omega

/-- Filesystem state carried by a merge outcome (final state of a normal
return, or the partially mutated state at the point an exception was
raised). -/
def mergeResFS : MergeRes → FSTree
  | .ok x => x.1
  | .error e => e

/-- After a completed merge of the source listing `scs` into the target
listing `tcs`, every source entry is covered in the target: present by name,
and a source directory faces either the self-link the merge created, an
(already merged) real directory, or a colliding real file (which the engine
skips).  This is the shape a second run finds. -/
def Covered (sp : FPath) (scs tcs : List (String × FSTree)) : Prop :=
  ∀ n c, FSTree.lookupChild scs n = some c →
    ∃ tc, FSTree.lookupChild tcs n = some tc ∧
      ∀ ccs, c = .dir ccs →
        tc = .link (sp ++ [n]) true ∨
        (∃ tccs, tc = .dir tccs ∧ Covered (sp ++ [n]) ccs tccs) ∨
        tc = .file
termination_by sizeOf scs
decreasing_by
  have h1 := sizeOf_lookupChild scs n c (by assumption)
  have h2 : c = FSTree.dir ccs := by assumption
  subst h2
  simp only [FSTree.dir.sizeOf_spec] at h1
  omega

/-! ## Concrete states used by the witnesses and counterexamples -/

/-- A state whose target already holds a directory symlink aliasing back into
the source (`T\\B` points at `S\\A`): the merge path never guards against
this. -/
def cxFs : FSTree :=
  .dir [("S", .dir [("A", .dir [("x", .file)]), ("B", .dir [("y", .file)])]),
        ("T", .dir [("A", .dir []), ("B", .link ["S","A"] true)])]

/-- The state after one run of `merge(S, T)` on `cxFs`: merging `B` through
the alias wrote a stray link into the source (`S\\A\\y`). -/
def cxFs1 : FSTree :=
  .dir [("S", .dir [("A", .dir [("x", .file), ("y", .link ["S","B","y"] false)]),
                    ("B", .dir [("y", .file)])]),
        ("T", .dir [("A", .dir [("x", .link ["S","A","x"] false)]),
                    ("B", .link ["S","A"] true)])]

/-- The state after the second run: the stray `y` got mirrored again. -/
def cxFs2 : FSTree :=
  .dir [("S", .dir [("A", .dir [("x", .file), ("y", .link ["S","B","y"] false)]),
                    ("B", .dir [("y", .file)])]),
        ("T", .dir [("A", .dir [("x", .link ["S","A","x"] false),
                                ("y", .link ["S","A","y"] false)]),
                    ("B", .link ["S","A"] true)])]

/-- A small link-free state: source `s` holding one file, empty target `t`. -/
def wFs : FSTree :=
  .dir [("s", .dir [("a", .file)]), ("t", .dir [])]

/-- A collision state: source `s` holds a directory `d` and a file `f`; the
target already holds a real file `d`.  `d` is not mergeable with a file. -/
def colFs : FSTree :=
  .dir [("s", .dir [("d", .dir [("z", .file)]), ("f", .file)]),
        ("t", .dir [("d", .file)])]

/-- After `merge(s, t)` on `colFs`: `d` was skipped (the target file is
untouched), the sibling `f` that follows it was still linked. -/
def colFs1 : FSTree :=
  .dir [("s", .dir [("d", .dir [("z", .file)]), ("f", .file)]),
        ("t", .dir [("d", .file), ("f", .link ["s","f"] false)])]

/-- A state for the Deleted-event counterexample: the target holds a real
file `a` that the engine did not create (no link anywhere). -/
def delFs : FSTree := .dir [("s", .dir []), ("t", .dir [("a", .file)])]

/-- A target entry that is a *file*-type link pointing at a real directory:
the entry's own type and its dereferenced type disagree. -/
def c5Fs : FSTree :=
  .dir [("d", .dir []), ("s", .dir []), ("t", .dir [("a", .link ["d"] false)])]

/-- A directory link in the target pointing at a real directory `d` with
contents. -/
def c5bFs : FSTree :=
  .dir [("d", .dir [("z", .file)]), ("s", .dir []),
        ("t", .dir [("a", .link ["d"] true)])]

/-- An active single-source configuration for the reconciliation witness. -/
def c6link : LinkConfiguration :=
  { id := "L1", name := "n", target_path := ["t"],
    sources := [(["s"], some ())], is_active := true, status := "",
    logs := [], rescan_interval := 10, last_rescan := 0 }

/-- An active configuration owning target `t` (for the duplicate-target
check). -/
def c7a : LinkConfiguration :=
  { id := "A", name := "a", target_path := ["t"], sources := [],
    is_active := true, status := "", logs := [], rescan_interval := 10,
    last_rescan := 0 }

/-- A second configuration with no target yet. -/
def c7b : LinkConfiguration :=
  { id := "B", name := "b", target_path := [], sources := [],
    is_active := false, status := "", logs := [], rescan_interval := 10,
    last_rescan := 0 }

/-- A configuration whose log is full (50 entries). -/
def c8link : LinkConfiguration :=
  { id := "C", name := "c", target_path := [], sources := [],
    is_active := false, status := "", logs := List.replicate 50 "x",
    rescan_interval := 10, last_rescan := 0 }

/-- An active configuration with one observed source (for the add-source
counterexample). -/
def c9link : LinkConfiguration :=
  { id := "A", name := "n", target_path := ["t"],
    sources := [(["s"], some ())], is_active := true, status := "",
    logs := [], rescan_interval := 10, last_rescan := 0 }

/-- The same configuration before it is started: inactive, observer-less. -/
def c9off : LinkConfiguration :=
  { id := "A", name := "n", target_path := ["t"], sources := [(["s"], none)],
    is_active := false, status := "", logs := [], rescan_interval := 10,
    last_rescan := 0 }

/-- The configuration `c9off` as `start_link` leaves it. -/
def c9res : LinkConfiguration :=
  { id := "A", name := "n", target_path := ["t"],
    sources := [(["s"], some ())], is_active := true,
    status := "✅ Watching 1 source(s)",
    logs := ["[ts] ⏳ Starting...", "[ts] 🔗 Linked 1 items from s",
      "[ts] ✅ Watching 1 source(s)"],
    rescan_interval := 10, last_rescan := 0 }

/-- A fully populated configuration for the round-trip witness. -/
def c10c : LinkConfiguration :=
  { id := "X", name := "nm", target_path := ["t"],
    sources := [(["s"], some ()), (["u"], none)], is_active := true,
    status := "st", logs := ["l1", "l2"], rescan_interval := 7,
    last_rescan := 3 }

/-! ## Directory-listing lemmas -/

namespace FSTree

theorem lookupChild_append_some {cs : List (String × FSTree)} {n : String}
    {c : FSTree} (h : lookupChild cs n = some c) (ds : List (String × FSTree)) :
    lookupChild (cs ++ ds) n = some c := by
  induction cs with
  | nil => simp [lookupChild] at h
  | cons hd tl ih =>
    obtain ⟨m, t⟩ := hd
    by_cases hm : m = n <;> simp_all [lookupChild]

theorem lookupChild_append_none {cs : List (String × FSTree)} {n : String}
    (h : lookupChild cs n = none) (ds : List (String × FSTree)) :
    lookupChild (cs ++ ds) n = lookupChild ds n := by
  induction cs with
  | nil => simp [lookupChild]
  | cons hd tl ih =>
    obtain ⟨m, t⟩ := hd
    by_cases hm : m = n <;> simp_all [lookupChild]

theorem lookupChild_setChild_self {cs : List (String × FSTree)} {n : String}
    {c : FSTree} (h : lookupChild cs n = some c) (v : FSTree) :
    lookupChild (setChild cs n v) n = some v := by
  induction cs with
  | nil => simp [lookupChild] at h
  | cons hd tl ih =>
    obtain ⟨m, t⟩ := hd
    by_cases hm : m = n <;> simp_all [lookupChild, setChild]

theorem lookupChild_setChild_ne (cs : List (String × FSTree)) {m n : String}
    (hne : m ≠ n) (v : FSTree) :
    lookupChild (setChild cs n v) m = lookupChild cs m := by
  induction cs with
  | nil => simp [lookupChild, setChild]
  | cons hd tl ih =>
    obtain ⟨k, t⟩ := hd
    by_cases hk : k = n
    · subst hk
      simp [lookupChild, setChild, Ne.symm hne, hne]
    · by_cases hk2 : k = m <;> simp_all [lookupChild, setChild]

theorem setChild_of_lookup_none {cs : List (String × FSTree)} {n : String}
    (h : lookupChild cs n = none) (v : FSTree) : setChild cs n v = cs := by
  induction cs with
  | nil => simp [setChild]
  | cons hd tl ih =>
    obtain ⟨m, t⟩ := hd
    by_cases hm : m = n <;> simp_all [lookupChild, setChild]

theorem setChild_self_eq {cs : List (String × FSTree)} {n : String} {c : FSTree}
    (h : lookupChild cs n = some c) : setChild cs n c = cs := by
  induction cs with
  | nil => simp [setChild]
  | cons hd tl ih =>
    obtain ⟨m, t⟩ := hd
    by_cases hm : m = n
    · subst hm
      simp_all [lookupChild, setChild]
    · simp only [lookupChild, if_neg hm] at h
      simp [setChild, hm, ih h]

theorem setChild_setChild (cs : List (String × FSTree)) (n : String)
    (v w : FSTree) : setChild (setChild cs n v) n w = setChild cs n w := by
  induction cs with
  | nil => simp [setChild]
  | cons hd tl ih =>
    obtain ⟨m, t⟩ := hd
    by_cases hm : m = n <;> simp_all [setChild]

theorem map_fst_setChild (cs : List (String × FSTree)) (n : String) (v : FSTree) :
    (setChild cs n v).map (·.1) = cs.map (·.1) := by
  induction cs with
  | nil => simp [setChild]
  | cons hd tl ih =>
    obtain ⟨m, t⟩ := hd
    by_cases hm : m = n <;> simp_all [setChild]

theorem lookupChild_eraseChild_ne (cs : List (String × FSTree)) {m n : String}
    (hne : m ≠ n) : lookupChild (eraseChild cs n) m = lookupChild cs m := by
  induction cs with
  | nil => simp [lookupChild, eraseChild]
  | cons hd tl ih =>
    obtain ⟨k, t⟩ := hd
    by_cases hk : k = n
    · subst hk
      simp [lookupChild, eraseChild, Ne.symm hne]
    · by_cases hk2 : k = m <;> simp_all [lookupChild, eraseChild]

theorem lookupChild_eq_none_of_not_mem {cs : List (String × FSTree)} {n : String}
    (h : n ∉ cs.map (·.1)) : lookupChild cs n = none := by
  induction cs with
  | nil => simp [lookupChild]
  | cons hd tl ih =>
    obtain ⟨k, t⟩ := hd
    simp only [List.map_cons, List.mem_cons] at h
    push_neg at h
    simp only [lookupChild, if_neg (Ne.symm h.1)]
    exact ih h.2

theorem lookupChild_eraseChild_self {cs : List (String × FSTree)} {n : String}
    (hnd : (cs.map (·.1)).Nodup) :
    lookupChild (eraseChild cs n) n = none := by
  induction cs with
  | nil => simp [lookupChild, eraseChild]
  | cons hd tl ih =>
    obtain ⟨k, t⟩ := hd
    simp only [List.map_cons, List.nodup_cons] at hnd
    by_cases hk : k = n
    · subst hk
      simp only [eraseChild, if_pos rfl]
      exact lookupChild_eq_none_of_not_mem hnd.1
    · simp only [eraseChild, if_neg hk, lookupChild, if_neg hk]
      exact ih hnd.2

theorem lookupChild_mem {cs : List (String × FSTree)} {n : String} {c : FSTree}
    (h : lookupChild cs n = some c) : (n, c) ∈ cs := by
  induction cs with
  | nil => simp [lookupChild] at h
  | cons hd tl ih =>
    obtain ⟨m, t⟩ := hd
    by_cases hm : m = n <;> simp_all [lookupChild]

theorem lookupChild_isSome_of_mem {cs : List (String × FSTree)} {n : String}
    {c : FSTree} (h : (n, c) ∈ cs) : (lookupChild cs n).isSome := by
  induction cs with
  | nil => simp at h
  | cons hd tl ih =>
    obtain ⟨m, t⟩ := hd
    rcases List.mem_cons.mp h with h1 | h1
    · cases h1
      simp [lookupChild]
    · by_cases hm : m = n <;> simp_all [lookupChild]

theorem lookupChild_of_mem_nodup {cs : List (String × FSTree)} {n : String}
    {c : FSTree} (hnd : (cs.map (·.1)).Nodup) (h : (n, c) ∈ cs) :
    lookupChild cs n = some c := by
  induction cs with
  | nil => simp at h
  | cons hd tl ih =>
    obtain ⟨m, t⟩ := hd
    simp only [List.map_cons, List.nodup_cons] at hnd
    rcases List.mem_cons.mp h with h1 | h1
    · cases h1
      simp [lookupChild]
    · by_cases hm : m = n
      · subst hm
        exfalso
        apply hnd.1
        have := lookupChild_isSome_of_mem h1
        rcases Option.isSome_iff_exists.mp this with ⟨c2, hc2⟩
        have := lookupChild_mem hc2
        exact List.mem_map.mpr ⟨(m, c2), this, rfl⟩
      · simp only [lookupChild, if_neg hm]
        exact ih hnd.2 h1

/-! ## Structural lookup and replacement -/

theorem getReal_append (t : FSTree) (p q : FPath) :
    t.getReal (p ++ q) = (t.getReal p).bind (·.getReal q) := by
  induction p generalizing t with
  | nil => simp [getReal]
  | cons c p ih =>
    cases t with
    | file => simp [getReal]
    | link tg b => simp [getReal]
    | dir cs =>
      simp only [List.cons_append, getReal]
      cases h : lookupChild cs c with
      | none => simp
      | some child => simpa using ih child

end FSTree

theorem getReal_setReal_append {fs : FSTree} {q : FPath} {t : FSTree}
    (h : fs.getReal q = some t) (v : FSTree) (p : FPath) :
    (setReal fs q v).getReal (q ++ p) = v.getReal p := by
  induction q generalizing fs with
  | nil => simp [setReal]
  | cons c q ih =>
    cases fs with
    | file => simp [FSTree.getReal] at h
    | link tg b => simp [FSTree.getReal] at h
    | dir cs =>
      simp only [FSTree.getReal] at h
      cases hl : FSTree.lookupChild cs c with
      | none => simp [hl] at h
      | some child =>
        rw [hl] at h
        simp only [setReal, hl, List.cons_append, FSTree.getReal,
          FSTree.lookupChild_setChild_self hl]
        exact ih h

theorem getReal_setReal_self {fs : FSTree} {q : FPath} {t : FSTree}
    (h : fs.getReal q = some t) (v : FSTree) :
    (setReal fs q v).getReal q = some v := by
  have := getReal_setReal_append h v []
  simpa [FSTree.getReal] using this

theorem getReal_setReal_frame (fs : FSTree) (q : FPath) (v : FSTree) {p : FPath}
    (h1 : ¬ q <+: p) (h2 : ¬ p <+: q) :
    (setReal fs q v).getReal p = fs.getReal p := by
  induction q generalizing fs p with
  | nil => exact absurd (List.nil_prefix) h1
  | cons c q ih =>
    cases p with
    | nil => exact absurd (List.nil_prefix) h2
    | cons d p' =>
      cases fs with
      | file => simp [setReal]
      | link tg b => simp [setReal]
      | dir cs =>
        simp only [setReal]
        cases hl : FSTree.lookupChild cs c with
        | none => rfl
        | some child =>
          by_cases hdc : d = c
          · subst hdc
            have hq : ¬ q <+: p' := fun hh => h1 (List.cons_prefix_cons.mpr ⟨rfl, hh⟩)
            have hp : ¬ p' <+: q := fun hh => h2 (List.cons_prefix_cons.mpr ⟨rfl, hh⟩)
            simp only [FSTree.getReal, FSTree.lookupChild_setChild_self hl, hl]
            exact ih child hq hp
          · simp only [FSTree.getReal]
            rw [FSTree.lookupChild_setChild_ne cs hdc (setReal child q v)]

theorem setReal_setReal (fs : FSTree) (q : FPath) (v w : FSTree) :
    setReal (setReal fs q v) q w = setReal fs q w := by
  induction q generalizing fs with
  | nil => simp [setReal]
  | cons c q ih =>
    cases fs with
    | file => simp [setReal]
    | link tg b => simp [setReal]
    | dir cs =>
      simp only [setReal]
      cases hl : FSTree.lookupChild cs c with
      | none => simp [setReal, hl]
      | some child =>
        simp only [setReal, FSTree.lookupChild_setChild_self hl, ih child,
          FSTree.setChild_setChild]

theorem setReal_nested {fs : FSTree} {q : FPath} {cs : List (String × FSTree)}
    (h : fs.getReal q = some (.dir cs)) {n : String} {c : FSTree}
    (hl : FSTree.lookupChild cs n = some c) (v : FSTree) :
    setReal fs (q ++ [n]) v = setReal fs q (.dir (FSTree.setChild cs n v)) := by
  induction q generalizing fs with
  | nil =>
    simp only [FSTree.getReal, Option.some.injEq] at h
    subst h
    simp [setReal, hl]
  | cons c0 q ih =>
    cases fs with
    | file => simp [FSTree.getReal] at h
    | link tg b => simp [FSTree.getReal] at h
    | dir cs0 =>
      simp only [FSTree.getReal] at h
      cases hl0 : FSTree.lookupChild cs0 c0 with
      | none => simp [hl0] at h
      | some child =>
        rw [hl0] at h
        have h2 : child.getReal q = some (.dir cs) := h
        simp only [List.cons_append, setReal, hl0, List.append_eq]
        rw [ih h2]

/-! ## Canonicalisation on structurally resolvable paths -/

theorem canonAux_getReal_false (root : FSTree) :
    ∀ (p : FPath) (fuel : Nat) (cur : FSTree) (acc : FPath) (t : FSTree),
      cur.getReal p = some t →
      canonAux root fuel cur acc p false = some (acc ++ p) := by
  intro p
  induction p with
  | nil => intro fuel cur acc t _; simp [canonAux]
  | cons c rest ih =>
    intro fuel cur acc t h
    cases cur with
    | file => simp [FSTree.getReal] at h
    | link tg b => simp [FSTree.getReal] at h
    | dir cs =>
      simp only [FSTree.getReal] at h
      cases hl : FSTree.lookupChild cs c with
      | none => simp [hl] at h
      | some child =>
        rw [hl] at h
        cases child with
        | link tg b =>
          cases rest with
          | nil => simp [canonAux, hl]
          | cons d rest2 => simp [FSTree.getReal] at h
        | file =>
          cases rest with
          | nil => simp [canonAux, hl]
          | cons d rest2 => simp [FSTree.getReal] at h
        | dir cs2 =>
          have := ih fuel (.dir cs2) (acc ++ [c]) t h
          simp only [canonAux, hl]
          rw [this]
          simp

theorem canonAux_getReal_true (root : FSTree) :
    ∀ (p : FPath) (fuel : Nat) (cur : FSTree) (acc : FPath) (t : FSTree),
      cur.getReal p = some t → isLinkNode t = false →
      canonAux root fuel cur acc p true = some (acc ++ p) := by
  intro p
  induction p with
  | nil => intro fuel cur acc t _ _; simp [canonAux]
  | cons c rest ih =>
    intro fuel cur acc t h hnl
    cases cur with
    | file => simp [FSTree.getReal] at h
    | link tg b => simp [FSTree.getReal] at h
    | dir cs =>
      simp only [FSTree.getReal] at h
      cases hl : FSTree.lookupChild cs c with
      | none => simp [hl] at h
      | some child =>
        rw [hl] at h
        cases child with
        | link tg b =>
          cases rest with
          | nil =>
            simp only [FSTree.getReal, Option.some.injEq] at h
            subst h
            simp [isLinkNode] at hnl
          | cons d rest2 => simp [FSTree.getReal] at h
        | file =>
          cases rest with
          | nil => simp [canonAux, hl]
          | cons d rest2 => simp [FSTree.getReal] at h
        | dir cs2 =>
          have := ih fuel (.dir cs2) (acc ++ [c]) t h hnl
          simp only [canonAux, hl]
          rw [this]
          simp

theorem canonAux_walk (root : FSTree) :
    ∀ (rest0 : FPath) (fuel : Nat) (cur : FSTree) (acc : FPath)
      (tcs : List (String × FSTree)) (rest1 : FPath) (fl : Bool),
      cur.getReal rest0 = some (.dir tcs) →
      canonAux root fuel cur acc (rest0 ++ rest1) fl =
        canonAux root fuel (.dir tcs) (acc ++ rest0) rest1 fl := by
  intro rest0
  induction rest0 with
  | nil =>
    intro fuel cur acc tcs rest1 fl h
    simp only [FSTree.getReal, Option.some.injEq] at h
    subst h
    simp
  | cons c r0 ih =>
    intro fuel cur acc tcs rest1 fl h
    cases cur with
    | file => simp [FSTree.getReal] at h
    | link tg b => simp [FSTree.getReal] at h
    | dir cs =>
      simp only [FSTree.getReal] at h
      cases hl : FSTree.lookupChild cs c with
      | none => simp [hl] at h
      | some child =>
        rw [hl] at h
        cases child with
        | link tg b =>
          cases r0 with
          | nil => simp [FSTree.getReal] at h
          | cons d r2 => simp [FSTree.getReal] at h
        | file =>
          cases r0 with
          | nil => simp [FSTree.getReal] at h
          | cons d r2 => simp [FSTree.getReal] at h
        | dir cs2 =>
          have := ih fuel (.dir cs2) (acc ++ [c]) tcs rest1 fl h
          simp only [List.cons_append, canonAux, hl]
          rw [this]
          simp

theorem lstatNode_of_getReal {fs : FSTree} {p : FPath} {t : FSTree}
    (h : fs.getReal p = some t) : lstatNode fs p = some t := by
  unfold lstatNode canon
  rw [canonAux_getReal_false fs p MAX_HOPS fs [] t h]
  simpa using h

theorem statNode_of_getReal {fs : FSTree} {p : FPath} {t : FSTree}
    (h : fs.getReal p = some t) (hnl : isLinkNode t = false) :
    statNode fs p = some t := by
  unfold statNode canon
  rw [canonAux_getReal_true fs p MAX_HOPS fs [] t h hnl]
  simpa using h

theorem lstatNode_concat {fs : FSTree} {tp : FPath} {tcs : List (String × FSTree)}
    (h : fs.getReal tp = some (.dir tcs)) (n : String) :
    lstatNode fs (tp ++ [n]) = FSTree.lookupChild tcs n := by
  have hget : fs.getReal (tp ++ [n]) = FSTree.lookupChild tcs n := by
    rw [FSTree.getReal_append, h]
    cases hl : FSTree.lookupChild tcs n <;> simp [FSTree.getReal, hl]
  unfold lstatNode canon
  rw [canonAux_walk fs tp MAX_HOPS fs [] tcs [n] false h]
  cases hl : FSTree.lookupChild tcs n with
  | none => simp [canonAux, hl]
  | some child =>
    cases child with
    | link tg b =>
      simp only [canonAux, hl, List.nil_append]
      simpa [hl] using hget
    | file =>
      simp only [canonAux, hl, List.nil_append]
      simpa [canonAux, hl] using hget
    | dir cs2 =>
      simp only [canonAux, hl, List.nil_append]
      simpa [canonAux, hl] using hget

theorem statNode_concat_nonlink {fs : FSTree} {tp : FPath}
    {tcs : List (String × FSTree)} (h : fs.getReal tp = some (.dir tcs))
    {n : String} {c : FSTree} (hl : FSTree.lookupChild tcs n = some c)
    (hnl : isLinkNode c = false) : statNode fs (tp ++ [n]) = some c := by
  have hget : fs.getReal (tp ++ [n]) = some c := by
    rw [FSTree.getReal_append, h]
    simp [FSTree.getReal, hl]
  exact statNode_of_getReal hget hnl

theorem statNode_concat_none {fs : FSTree} {tp : FPath}
    {tcs : List (String × FSTree)} (h : fs.getReal tp = some (.dir tcs))
    {n : String} (hl : FSTree.lookupChild tcs n = none) :
    statNode fs (tp ++ [n]) = none := by
  unfold statNode canon
  rw [canonAux_walk fs tp MAX_HOPS fs [] tcs [n] true h]
  simp [canonAux, hl]

theorem statNode_concat_link {fs : FSTree} {tp : FPath}
    {tcs : List (String × FSTree)} (h : fs.getReal tp = some (.dir tcs))
    {n : String} {lt : FPath} {b : Bool}
    (hl : FSTree.lookupChild tcs n = some (.link lt b)) {t2 : FSTree}
    (h2 : fs.getReal lt = some t2) (hnl2 : isLinkNode t2 = false) :
    statNode fs (tp ++ [n]) = some t2 := by
  unfold statNode canon
  rw [canonAux_walk fs tp MAX_HOPS fs [] tcs [n] true h]
  simp only [canonAux, hl, List.nil_append]
  have hmax : MAX_HOPS = 63 + 1 := rfl
  rw [hmax]
  simp only [List.append_nil]
  rw [canonAux_getReal_true fs lt 63 fs [] t2 h2 hnl2]
  simpa using h2

/-! ## Derived filesystem predicates on structurally resolvable paths -/

theorem lexists_concat {fs : FSTree} {tp : FPath} {tcs : List (String × FSTree)}
    (h : fs.getReal tp = some (.dir tcs)) (n : String) :
    lexists fs (tp ++ [n]) = (FSTree.lookupChild tcs n).isSome := by
  unfold lexists
  rw [lstatNode_concat h n]

theorem islink_concat_node {fs : FSTree} {tp : FPath} {tcs : List (String × FSTree)}
    (h : fs.getReal tp = some (.dir tcs)) {n : String} {c : FSTree}
    (hl : FSTree.lookupChild tcs n = some c) :
    islink fs (tp ++ [n]) = isLinkNode c := by
  unfold islink
  rw [lstatNode_concat h n, hl]

theorem islink_concat_none {fs : FSTree} {tp : FPath} {tcs : List (String × FSTree)}
    (h : fs.getReal tp = some (.dir tcs)) {n : String}
    (hl : FSTree.lookupChild tcs n = none) :
    islink fs (tp ++ [n]) = false := by
  unfold islink
  rw [lstatNode_concat h n, hl]

theorem readlink_concat_link {fs : FSTree} {tp : FPath} {tcs : List (String × FSTree)}
    (h : fs.getReal tp = some (.dir tcs)) {n : String} {lt : FPath} {b : Bool}
    (hl : FSTree.lookupChild tcs n = some (.link lt b)) :
    readlink fs (tp ++ [n]) = some lt := by
  unfold readlink
  rw [lstatNode_concat h n, hl]

theorem isdir_concat_nonlink {fs : FSTree} {tp : FPath}
    {tcs : List (String × FSTree)} (h : fs.getReal tp = some (.dir tcs))
    {n : String} {c : FSTree} (hl : FSTree.lookupChild tcs n = some c)
    (hnl : isLinkNode c = false) : isdir fs (tp ++ [n]) = isDirNode c := by
  unfold isdir
  rw [statNode_concat_nonlink h hl hnl]

theorem isdir_of_getReal {fs : FSTree} {p : FPath} {t : FSTree}
    (h : fs.getReal p = some t) (hnl : isLinkNode t = false) :
    isdir fs p = isDirNode t := by
  unfold isdir
  rw [statNode_of_getReal h hnl]

theorem islink_of_getReal {fs : FSTree} {p : FPath} {t : FSTree}
    (h : fs.getReal p = some t) :
    islink fs p = isLinkNode t := by
  unfold islink
  rw [lstatNode_of_getReal h]

theorem listdir_of_getReal {fs : FSTree} {p : FPath} {cs : List (String × FSTree)}
    (h : fs.getReal p = some (.dir cs)) :
    listdir fs p = some (cs.map (·.1)) := by
  unfold listdir
  rw [statNode_of_getReal h (by simp [isLinkNode])]

theorem existsPath_of_getReal {fs : FSTree} {p : FPath} {t : FSTree}
    (h : fs.getReal p = some t) (hnl : isLinkNode t = false) :
    existsPath fs p = true := by
  unfold existsPath
  rw [statNode_of_getReal h hnl]
  rfl

theorem lexists_of_getReal {fs : FSTree} {p : FPath} {t : FSTree}
    (h : fs.getReal p = some t) : lexists fs p = true := by
  unfold lexists
  rw [lstatNode_of_getReal h]
  rfl

/-! ## Mutation characterisations on structurally resolvable paths -/

theorem modifyReal_of_getReal {f : FSTree → Option FSTree} :
    ∀ {q : FPath} {fs t ft : FSTree}, fs.getReal q = some t → f t = some ft →
      modifyReal f fs q = some (setReal fs q ft) := by
  intro q
  induction q with
  | nil =>
    intro fs t ft h hf
    simp only [FSTree.getReal, Option.some.injEq] at h
    subst h
    simp [modifyReal, setReal, hf]
  | cons c rest ih =>
    intro fs t ft h hf
    cases fs with
    | file => simp [FSTree.getReal] at h
    | link tg b => simp [FSTree.getReal] at h
    | dir cs =>
      simp only [FSTree.getReal] at h
      cases hl : FSTree.lookupChild cs c with
      | none => simp [hl] at h
      | some child =>
        rw [hl] at h
        have h2 : child.getReal rest = some t := h
        simp only [modifyReal, hl, setReal, ih h2 hf]
        rfl

theorem mklinkOp_eq {fs : FSTree} {tp : FPath} {cs : List (String × FSTree)}
    (h : fs.getReal tp = some (.dir cs)) {item : String}
    (hl : FSTree.lookupChild cs item = none) (tgt : FPath) (b : Bool) :
    mklinkOp fs (tp ++ [item]) tgt b =
      some (setReal fs tp (.dir (cs ++ [(item, .link tgt b)]))) := by
  unfold mklinkOp
  have hcanon : canon fs (tp ++ [item]).dropLast true = some tp := by
    rw [List.dropLast_concat]
    unfold canon
    rw [canonAux_getReal_true fs tp MAX_HOPS fs [] (.dir cs) h (by simp [isLinkNode])]
    simp
  simp only [List.getLast?_concat, hcanon, h, hl]
  exact modifyReal_of_getReal h rfl

theorem removeEntry_eq {fs : FSTree} {tp : FPath} {cs : List (String × FSTree)}
    (h : fs.getReal tp = some (.dir cs)) {item : String} {c : FSTree}
    (hl : FSTree.lookupChild cs item = some c) :
    removeEntry fs (tp ++ [item]) =
      some (setReal fs tp (.dir (FSTree.eraseChild cs item))) := by
  unfold removeEntry
  have hcanon : canon fs (tp ++ [item]).dropLast true = some tp := by
    rw [List.dropLast_concat]
    unfold canon
    rw [canonAux_getReal_true fs tp MAX_HOPS fs [] (.dir cs) h (by simp [isLinkNode])]
    simp
  simp only [List.getLast?_concat, hcanon]
  have hf : (fun t =>
    match t with
    | FSTree.dir cs2 =>
      match FSTree.lookupChild cs2 item with
      | some _ => some (FSTree.dir (FSTree.eraseChild cs2 item))
      | none => none
    | _ => none) (FSTree.dir cs) = some (.dir (FSTree.eraseChild cs item)) := by
    simp [hl]
  exact modifyReal_of_getReal h hf

/-! ## The extension order: engine mutations only ever add entries -/

theorem Ext_refl : ∀ t : FSTree, Ext t t
  | .file => by simp [Ext]
  | .link tg b => by simp [Ext]
  | .dir cs => by
    simp only [Ext]
    exact ⟨cs, rfl, fun n c h => ⟨c, h, Ext_refl c⟩⟩
termination_by t => sizeOf t
decreasing_by
  have := sizeOf_lookupChild cs n c (by assumption)
  simp only [FSTree.dir.sizeOf_spec]
  omega

theorem Ext_trans : ∀ a b c : FSTree, Ext a b → Ext b c → Ext a c
  | .file, b, c, h1, h2 => by
    simp only [Ext] at h1
    subst h1
    exact h2
  | .link tg x, b, c, h1, h2 => by
    simp only [Ext] at h1
    subst h1
    exact h2
  | .dir cs, b, c, h1, h2 => by
    simp only [Ext] at h1
    obtain ⟨cs2, rfl, H1⟩ := h1
    simp only [Ext] at h2
    obtain ⟨cs3, rfl, H2⟩ := h2
    simp only [Ext]
    refine ⟨cs3, rfl, fun n x hx => ?_⟩
    obtain ⟨y, hy, e1⟩ := H1 n x hx
    obtain ⟨z, hz, e2⟩ := H2 n y hy
    exact ⟨z, hz, Ext_trans x y z e1 e2⟩
termination_by a _ _ _ _ => sizeOf a
decreasing_by
  have := sizeOf_lookupChild cs n x (by assumption)
  simp only [FSTree.dir.sizeOf_spec]
  omega

theorem Ext_dir_append (cs ds : List (String × FSTree)) :
    Ext (.dir cs) (.dir (cs ++ ds)) := by
  simp only [Ext]
  exact ⟨cs ++ ds, rfl, fun n c h => ⟨c, FSTree.lookupChild_append_some h ds, Ext_refl c⟩⟩

theorem Ext_getReal :
    ∀ (p : FPath) {a b t : FSTree}, Ext a b → a.getReal p = some t →
      ∃ t2, b.getReal p = some t2 ∧ Ext t t2 := by
  intro p
  induction p with
  | nil =>
    intro a b t he h
    simp only [FSTree.getReal, Option.some.injEq] at h
    subst h
    exact ⟨b, by simp [FSTree.getReal], he⟩
  | cons c rest ih =>
    intro a b t he h
    cases a with
    | file => simp [FSTree.getReal] at h
    | link tg x => simp [FSTree.getReal] at h
    | dir cs =>
      simp only [FSTree.getReal] at h
      cases hl : FSTree.lookupChild cs c with
      | none => simp [hl] at h
      | some child =>
        rw [hl] at h
        simp only [Ext] at he
        obtain ⟨cs2, rfl, H⟩ := he
        obtain ⟨child2, hl2, he2⟩ := H c child hl
        have h2 : child.getReal rest = some t := h
        obtain ⟨t2, ht2, het⟩ := ih he2 h2
        exact ⟨t2, by simp [FSTree.getReal, hl2, ht2], het⟩

theorem Ext_canonAux :
    ∀ (fuel : Nat) (p : FPath) {root root2 cur cur2 : FSTree} (acc : FPath)
      (fl : Bool) {cp : FPath}, Ext root root2 → Ext cur cur2 →
      canonAux root fuel cur acc p fl = some cp →
      canonAux root2 fuel cur2 acc p fl = some cp
  | fuel, [], root, root2, cur, cur2, acc, fl, cp, _, _, h => by
    simpa [canonAux] using h
  | fuel, c :: rest, root, root2, cur, cur2, acc, fl, cp, hr, hc, h => by
    cases cur with
    | file => simp [canonAux] at h
    | link tg x => simp [canonAux] at h
    | dir cs =>
      simp only [Ext] at hc
      obtain ⟨cs2, rfl, H⟩ := hc
      unfold canonAux at h ⊢
      cases hl : FSTree.lookupChild cs c with
      | none =>
        simp only [hl] at h
        exact absurd h (by simp)
      | some child =>
        obtain ⟨child2, hl2, he2⟩ := H c child hl
        cases child with
        | link tg x =>
          simp only [Ext] at he2
          subst he2
          simp only [hl] at h
          simp only [hl2]
          by_cases hb : rest = [] ∧ fl = false
          · rw [if_pos hb] at h ⊢
            exact h
          · rw [if_neg hb] at h ⊢
            cases fuel with
            | zero => simp at h
            | succ fuel' => exact Ext_canonAux fuel' (tg ++ rest) [] fl hr hr h
        | file =>
          simp only [Ext] at he2
          subst he2
          simp only [hl] at h
          simp only [hl2]
          exact Ext_canonAux fuel rest (acc ++ [c]) fl hr (Ext_refl _) h
        | dir csx =>
          have he2' := he2
          simp only [Ext] at he2'
          obtain ⟨csy, hy, _⟩ := he2'
          subst hy
          simp only [hl] at h
          simp only [hl2]
          exact Ext_canonAux fuel rest (acc ++ [c]) fl hr he2 h
termination_by fuel p _ _ _ _ => (fuel, p.length)

theorem Ext_statNode {fs fs2 : FSTree} (he : Ext fs fs2) {p : FPath} {t : FSTree}
    (h : statNode fs p = some t) : ∃ t2, statNode fs2 p = some t2 ∧ Ext t t2 := by
  unfold statNode canon at h ⊢
  cases hcp : canonAux fs MAX_HOPS fs [] p true with
  | none => rw [hcp] at h; simp at h
  | some cp =>
    rw [hcp] at h
    simp only [Option.some_bind] at h
    rw [Ext_canonAux MAX_HOPS p [] true he he hcp]
    simpa using Ext_getReal cp he h

theorem Ext_existsPath {fs fs2 : FSTree} (he : Ext fs fs2) {p : FPath}
    (h : existsPath fs p = true) : existsPath fs2 p = true := by
  unfold existsPath at h ⊢
  rcases Option.isSome_iff_exists.mp h with ⟨t, ht⟩
  obtain ⟨t2, ht2, _⟩ := Ext_statNode he ht
  simp [ht2]

theorem Ext_modifyReal {f : FSTree → Option FSTree}
    (hf : ∀ t ft, f t = some ft → Ext t ft) :
    ∀ (q : FPath) (fs : FSTree) {fs2 : FSTree}, modifyReal f fs q = some fs2 →
      Ext fs fs2 := by
  intro q
  induction q with
  | nil =>
    intro fs fs2 h
    exact hf _ _ h
  | cons c rest ih =>
    intro fs fs2 h
    cases fs with
    | file => exact absurd h (by simp [modifyReal])
    | link tg b => exact absurd h (by simp [modifyReal])
    | dir cs =>
      unfold modifyReal at h
      cases hl : FSTree.lookupChild cs c with
      | none =>
        simp only [hl] at h
        exact absurd h (by simp)
      | some child =>
        simp only [hl] at h
        have h2 : Option.map (fun ch => FSTree.dir (FSTree.setChild cs c ch))
            (modifyReal f child rest) = some fs2 := h
        cases hm : modifyReal f child rest with
        | none => rw [hm] at h2; simp at h2
        | some child2 =>
          rw [hm] at h2
          have h3 : FSTree.dir (FSTree.setChild cs c child2) = fs2 := by
            simpa using h2
          subst h3
          simp only [Ext]
          refine ⟨_, rfl, fun n x hx => ?_⟩
          by_cases hnc : n = c
          · subst hnc
            rw [hx] at hl
            cases hl
            exact ⟨child2, FSTree.lookupChild_setChild_self hx child2, ih child hm⟩
          · exact ⟨x, by rw [FSTree.lookupChild_setChild_ne cs hnc child2]; exact hx,
              Ext_refl x⟩

theorem Ext_makedirsAux :
    ∀ (fs : FSTree) (base : FPath) (rest : List String) (fs2 : FSTree),
      makedirsAux fs base rest = some fs2 → Ext fs fs2 := by
  have happ : ∀ (c : String) (t ft : FSTree),
      (fun t =>
        match t with
        | FSTree.dir cs' => some (FSTree.dir (cs' ++ [(c, FSTree.dir [])]))
        | _ => none) t = some ft → Ext t ft := by
    intro c t ft hft
    cases t with
    | file => simp at hft
    | link tg b => simp at hft
    | dir cs2 =>
      simp only [Option.some.injEq] at hft
      subst hft
      exact Ext_dir_append cs2 [(c, .dir [])]
  intro fs base rest
  induction fs, base, rest using makedirsAux.induct with
  | case1 fs base =>
    intro fs2 h
    unfold makedirsAux at h
    simp at h
  | case2 fs base c hg =>
    intro fs2 h
    unfold makedirsAux at h
    simp only [hg] at h
    exact absurd h (by simp)
  | case3 fs base c cs child hl hg =>
    intro fs2 h
    unfold makedirsAux at h
    simp only [hg, hl] at h
    exact absurd h (by simp)
  | case4 fs base c cs hl hg =>
    intro fs2 h
    unfold makedirsAux at h
    simp only [hg, hl] at h
    exact Ext_modifyReal (happ c) base fs h
  | case5 fs base c child hg hnd =>
    intro fs2 h
    unfold makedirsAux at h
    simp only [hg] at h
    cases child with
    | file => exact absurd h (by simp)
    | link tg b => exact absurd h (by simp)
    | dir cs => exact absurd rfl (hnd cs)
  | case6 fs base c head tail hg =>
    intro fs2 h
    unfold makedirsAux at h
    simp only [hg] at h
    exact absurd h (by simp)
  | case7 fs base c head tail cs child hl cc hcc hg2 hg =>
    intro fs2 h
    unfold makedirsAux at h
    simp only [hg, hl, hcc, hg2] at h
    exact absurd h (by simp)
  | case8 fs base c head tail cs child hl cc hcc cs1 hg hg2 ih =>
    intro fs2 h
    unfold makedirsAux at h
    simp only [hg, hl, hcc, hg2] at h
    exact ih fs2 h
  | case9 fs base c head tail cs child hl cc hcc child2 hg2 hnd hg =>
    intro fs2 h
    unfold makedirsAux at h
    simp only [hg, hl, hcc, hg2] at h
    cases child2 with
    | file => exact absurd h (by simp)
    | link tg b => exact absurd h (by simp)
    | dir cs4 => exact absurd rfl (hnd cs4)
  | case10 fs base c head tail cs child hl hcc hg =>
    intro fs2 h
    unfold makedirsAux at h
    simp only [hg, hl, hcc] at h
    exact absurd h (by simp)
  | case11 fs base c head tail cs hl child hm hg ih =>
    intro fs2 h
    unfold makedirsAux at h
    simp only [hg, hl, hm] at h
    exact Ext_trans fs child fs2 (Ext_modifyReal (happ c) base fs hm) (ih fs2 h)
  | case12 fs base c head tail cs hl hm hg =>
    intro fs2 h
    unfold makedirsAux at h
    simp only [hg, hl, hm] at h
    exact absurd h (by simp)
  | case13 fs base c head tail child hg hnd =>
    intro fs2 h
    unfold makedirsAux at h
    simp only [hg] at h
    cases child with
    | file => exact absurd h (by simp)
    | link tg b => exact absurd h (by simp)
    | dir cs => exact absurd rfl (hnd cs)

theorem Ext_mklinkOp {fs : FSTree} {lp tp : FPath} {b : Bool} {fs2 : FSTree}
    (h : mklinkOp fs lp tp b = some fs2) : Ext fs fs2 := by
  unfold mklinkOp at h
  cases hlast : lp.getLast? with
  | none => rw [hlast] at h; simp at h
  | some name =>
    simp only [hlast] at h
    cases hcanon : canon fs lp.dropLast true with
    | none => rw [hcanon] at h; simp at h
    | some pp =>
      simp only [hcanon] at h
      cases hg : fs.getReal pp with
      | none => rw [hg] at h; simp at h
      | some t =>
        simp only [hg] at h
        cases t with
        | file => simp at h
        | link tg x => simp at h
        | dir cs =>
          have h2 : (match FSTree.lookupChild cs name with
              | some _ => none
              | none =>
                modifyReal (fun t =>
                  match t with
                  | FSTree.dir cs' => some (FSTree.dir (cs' ++ [(name, FSTree.link tp b)]))
                  | _ => none) fs pp) = some fs2 := h
          cases hl : FSTree.lookupChild cs name with
          | some v => rw [hl] at h2; simp at h2
          | none =>
            rw [hl] at h2
            refine Ext_modifyReal ?_ pp fs h2
            intro t ft hft
            cases t with
            | file => simp at hft
            | link tg x => simp at hft
            | dir cs2 =>
              simp only [Option.some.injEq] at hft
              subst hft
              exact Ext_dir_append cs2 [(name, .link tp b)]

theorem Ext_execCmd_mkLink (fs : FSTree) (l t : FPath) (d : Bool) :
    Ext fs (execCmd fs (.mkLink l t d)).1 := by
  have he : execCmd fs (.mkLink l t d) =
      (match mklinkOp fs l t d with
      | some fs2 => (fs2, true)
      | none => (fs, false)) := rfl
  rw [he]
  cases hmk : mklinkOp fs l t d with
  | none => exact Ext_refl fs
  | some fs2 => exact Ext_mklinkOp hmk

theorem Ext_makedirs {fs : FSTree} {p : FPath} {fs2 : FSTree}
    (h : makedirs fs p = some fs2) : Ext fs fs2 :=
  Ext_makedirsAux fs [] p fs2 h

theorem Ext_mergeItems_aux (fuel : Nat)
    (hf : ∀ (fs : FSTree) (sd td : FPath) (r : MergeRes),
      mergeFuel fuel fs sd td = some r → Ext fs (mergeResFS r)) :
    ∀ (items : List String) (sd a : FPath) (fs : FSTree) (r : MergeRes),
      mergeItems fuel sd a fs items = some r → Ext fs (mergeResFS r) := by
  intro items
  induction items with
  | nil =>
    intro sd a fs r h
    unfold mergeItems at h
    simp only [Option.some.injEq] at h
    subst h
    exact Ext_refl fs
  | cons item rest ih =>
    intro sd a fs r h
    unfold mergeItems at h
    by_cases hx : lexists fs (a ++ [item]) = true
    · rw [if_pos hx] at h
      by_cases hd : (isdir fs (sd ++ [item]) && isdir fs (a ++ [item])) = true
      · rw [if_pos hd] at h
        cases hm : mergeFuel fuel fs (sd ++ [item]) (a ++ [item]) with
        | none => rw [hm] at h; simp at h
        | some r1 =>
          rw [hm] at h
          have he1 : Ext fs (mergeResFS r1) := hf _ _ _ r1 hm
          clear hm
          cases r1 with
          | error e =>
            have h2 : some (Except.error e) = some r := h
            simp only [Option.some.injEq] at h2
            subst h2
            exact he1
          | ok x =>
            obtain ⟨fs1, c, msgs⟩ := x
            have h2 : (match mergeItems fuel sd a fs1 rest with
                | none => none
                | some r2 =>
                  match r2 with
                  | Except.error e => some (Except.error e)
                  | Except.ok (fs2, c2, msgs2) =>
                    some (Except.ok (fs2, c + c2, msgs ++ msgs2))) = some r := h
            have he1' : Ext fs fs1 := he1
            cases hm2 : mergeItems fuel sd a fs1 rest with
            | none => rw [hm2] at h2; simp at h2
            | some r2 =>
              rw [hm2] at h2
              have he2 : Ext fs1 (mergeResFS r2) := ih sd a fs1 r2 hm2
              clear hm2
              cases r2 with
              | error e =>
                have h3 : some (Except.error e) = some r := h2
                simp only [Option.some.injEq] at h3
                subst h3
                exact Ext_trans _ _ _ he1' he2
              | ok y =>
                obtain ⟨fs2, c2, msgs2⟩ := y
                have h3 : some (Except.ok (fs2, c + c2, msgs ++ msgs2)) = some r := h2
                simp only [Option.some.injEq] at h3
                subst h3
                exact Ext_trans _ _ _ he1' he2
      · rw [if_neg hd] at h
        exact ih sd a fs r h
    · rw [if_neg hx] at h
      have hcmd := Ext_execCmd_mkLink fs (a ++ [item]) (sd ++ [item])
        (isdir fs (sd ++ [item]))
      cases hex : execCmd fs (.mkLink (a ++ [item]) (sd ++ [item])
          (isdir fs (sd ++ [item]))) with
      | mk fs1 ok =>
        rw [hex] at hcmd h
        have hcmd1 : Ext fs fs1 := hcmd
        clear hex hcmd
        have h2 : (match mergeItems fuel sd a fs1 rest with
            | none => none
            | some r2 =>
              match r2 with
              | Except.error e => some (Except.error e)
              | Except.ok (fs2, c2, msgs2) =>
                some (Except.ok (fs2, (if ok = true then 1 else 0) + c2, msgs2))) =
            some r := h
        cases hm2 : mergeItems fuel sd a fs1 rest with
        | none => rw [hm2] at h2; simp at h2
        | some r2 =>
          rw [hm2] at h2
          have he2 : Ext fs1 (mergeResFS r2) := ih sd a fs1 r2 hm2
          clear hm2
          cases r2 with
          | error e =>
            have h3 : some (Except.error e) = some r := h2
            simp only [Option.some.injEq] at h3
            subst h3
            exact Ext_trans _ _ _ hcmd1 he2
          | ok y =>
            obtain ⟨fs2, c2, msgs2⟩ := y
            have h3 : some (Except.ok (fs2, (if ok = true then 1 else 0) + c2, msgs2)) =
                some r := h2
            simp only [Option.some.injEq] at h3
            subst h3
            exact Ext_trans _ _ _ hcmd1 he2

theorem Ext_mergeFuel :
    ∀ (fuel : Nat) (fs : FSTree) (sd td : FPath) (r : MergeRes),
      mergeFuel fuel fs sd td = some r → Ext fs (mergeResFS r) := by
  intro fuel
  induction fuel with
  | zero =>
    intro fs sd td r h
    unfold mergeFuel at h
    simp at h
  | succ n ih =>
    intro fs sd td r h
    unfold mergeFuel at h
    generalize hA : (if islink fs td = true then (readlink fs td).getD td else td) = A at h
    dsimp only at h
    by_cases hex : existsPath fs A = true
    · have h2 : (match listdir fs sd with
          | none => some (Except.error fs)
          | some items => mergeItems n sd A fs items) = some r := by
        rw [if_pos hex] at h
        exact h
      cases hld : listdir fs sd with
      | none =>
        rw [hld] at h2
        simp only [Option.some.injEq] at h2
        subst h2
        exact Ext_refl fs
      | some items =>
        rw [hld] at h2
        exact Ext_mergeItems_aux n ih items sd A fs r h2
    · rw [if_neg hex] at h
      cases hmk : makedirs fs A with
      | none =>
        have h2 : some (Except.error fs) = some r := by
          rw [hmk] at h
          exact h
        simp only [Option.some.injEq] at h2
        subst h2
        exact Ext_refl fs
      | some fs1 =>
        have h2 : (match listdir fs1 sd with
            | none => some (Except.error fs1)
            | some items => mergeItems n sd A fs1 items) = some r := by
          rw [hmk] at h
          exact h
        have he1 : Ext fs fs1 := Ext_makedirs hmk
        cases hld : listdir fs1 sd with
        | none =>
          rw [hld] at h2
          simp only [Option.some.injEq] at h2
          subst h2
          exact he1
        | some items =>
          rw [hld] at h2
          exact Ext_trans _ _ _ he1 (Ext_mergeItems_aux n ih items sd A fs1 r h2)

/-! ## Children-property lemmas -/

theorem linkFreeChildren_lookup : ∀ {cs : List (String × FSTree)} {n : String}
    {c : FSTree}, linkFreeChildren cs = true →
    FSTree.lookupChild cs n = some c → linkFree c = true := by
  intro cs
  induction cs with
  | nil => intro n c _ h; simp [FSTree.lookupChild] at h
  | cons kv rest ih =>
    intro n c hlf h
    obtain ⟨m, t⟩ := kv
    simp only [linkFreeChildren, Bool.and_eq_true] at hlf
    simp only [FSTree.lookupChild] at h
    by_cases hm : m = n
    · rw [if_pos hm] at h
      cases h
      exact hlf.1
    · rw [if_neg hm] at h
      exact ih hlf.2 h

theorem wfChildren_lookup : ∀ {cs : List (String × FSTree)} {n : String}
    {c : FSTree}, wfChildren cs = true →
    FSTree.lookupChild cs n = some c → wfTree c = true := by
  intro cs
  induction cs with
  | nil => intro n c _ h; simp [FSTree.lookupChild] at h
  | cons kv rest ih =>
    intro n c hwf h
    obtain ⟨m, t⟩ := kv
    simp only [wfChildren, Bool.and_eq_true] at hwf
    simp only [FSTree.lookupChild] at h
    by_cases hm : m = n
    · rw [if_pos hm] at h
      cases h
      exact hwf.1
    · rw [if_neg hm] at h
      exact ih hwf.2 h

theorem depthChildren_lookup : ∀ {cs : List (String × FSTree)} {n : String}
    {c : FSTree}, FSTree.lookupChild cs n = some c →
    depth c ≤ depthChildren cs := by
  intro cs
  induction cs with
  | nil => intro n c h; simp [FSTree.lookupChild] at h
  | cons kv rest ih =>
    intro n c h
    obtain ⟨m, t⟩ := kv
    simp only [FSTree.lookupChild] at h
    simp only [depthChildren]
    by_cases hm : m = n
    · rw [if_pos hm] at h
      cases h
      exact Nat.le_max_left _ _
    · rw [if_neg hm] at h
      exact le_trans (ih h) (Nat.le_max_right _ _)

/-! ## Merge never calls the status callback -/

theorem mergeItems_no_msgs_aux (fuel : Nat)
    (hf : ∀ (fs : FSTree) (sd td : FPath) (fs2 : FSTree) (c : Nat)
      (msgs : List String),
      mergeFuel fuel fs sd td = some (.ok (fs2, c, msgs)) → msgs = []) :
    ∀ (items : List String) (sd a : FPath) (fs fs2 : FSTree) (c : Nat)
      (msgs : List String),
      mergeItems fuel sd a fs items = some (.ok (fs2, c, msgs)) → msgs = [] := by
  intro items
  induction items with
  | nil =>
    intro sd a fs fs2 c msgs h
    unfold mergeItems at h
    simp only [Option.some.injEq, Except.ok.injEq, Prod.mk.injEq] at h
    exact h.2.2.symm
  | cons item rest ih =>
    intro sd a fs fs2 c msgs h
    unfold mergeItems at h
    by_cases hx : lexists fs (a ++ [item]) = true
    · rw [if_pos hx] at h
      by_cases hd : (isdir fs (sd ++ [item]) && isdir fs (a ++ [item])) = true
      · rw [if_pos hd] at h
        cases hm : mergeFuel fuel fs (sd ++ [item]) (a ++ [item]) with
        | none => rw [hm] at h; simp at h
        | some r1 =>
          rw [hm] at h
          cases r1 with
          | error e =>
            have h2 : some (Except.error e) = some (Except.ok (fs2, c, msgs)) := h
            simp at h2
          | ok x =>
            obtain ⟨fs1, c1, msgs1⟩ := x
            have hm1 : msgs1 = [] := hf _ _ _ _ _ _ hm
            have h2 : (match mergeItems fuel sd a fs1 rest with
                | none => none
                | some r2 =>
                  match r2 with
                  | Except.error e => some (Except.error e)
                  | Except.ok (fs3, c2, msgs2) =>
                    some (Except.ok (fs3, c1 + c2, msgs1 ++ msgs2))) =
                some (Except.ok (fs2, c, msgs)) := h
            cases hm2 : mergeItems fuel sd a fs1 rest with
            | none => rw [hm2] at h2; simp at h2
            | some r2 =>
              rw [hm2] at h2
              cases r2 with
              | error e => simp at h2
              | ok y =>
                obtain ⟨fs3, c2, msgs2⟩ := y
                have hm2' : msgs2 = [] := ih sd a fs1 fs3 c2 msgs2 hm2
                simp only [Option.some.injEq, Except.ok.injEq, Prod.mk.injEq] at h2
                rw [← h2.2.2, hm1, hm2']
                rfl
      · rw [if_neg hd] at h
        exact ih sd a fs fs2 c msgs h
    · rw [if_neg hx] at h
      cases hex : execCmd fs (.mkLink (a ++ [item]) (sd ++ [item])
          (isdir fs (sd ++ [item]))) with
      | mk fs1 ok =>
        rw [hex] at h
        have h2 : (match mergeItems fuel sd a fs1 rest with
            | none => none
            | some r2 =>
              match r2 with
              | Except.error e => some (Except.error e)
              | Except.ok (fs3, c2, msgs2) =>
                some (Except.ok (fs3, (if ok = true then 1 else 0) + c2, msgs2))) =
            some (Except.ok (fs2, c, msgs)) := h
        cases hm2 : mergeItems fuel sd a fs1 rest with
        | none => rw [hm2] at h2; simp at h2
        | some r2 =>
          rw [hm2] at h2
          cases r2 with
          | error e => simp at h2
          | ok y =>
            obtain ⟨fs3, c2, msgs2⟩ := y
            have hm2' : msgs2 = [] := ih sd a fs1 fs3 c2 msgs2 hm2
            simp only [Option.some.injEq, Except.ok.injEq, Prod.mk.injEq] at h2
            rw [← h2.2.2]
            exact hm2'

theorem mergeFuel_no_msgs :
    ∀ (fuel : Nat) (fs : FSTree) (sd td : FPath) (fs2 : FSTree) (c : Nat)
      (msgs : List String),
      mergeFuel fuel fs sd td = some (.ok (fs2, c, msgs)) → msgs = [] := by
  intro fuel
  induction fuel with
  | zero =>
    intro fs sd td fs2 c msgs h
    unfold mergeFuel at h
    simp at h
  | succ n ih =>
    intro fs sd td fs2 c msgs h
    unfold mergeFuel at h
    generalize hA : (if islink fs td = true then (readlink fs td).getD td else td) = A at h
    dsimp only at h
    by_cases hex : existsPath fs A = true
    · have h2 : (match listdir fs sd with
          | none => some (Except.error fs)
          | some items => mergeItems n sd A fs items) =
          some (Except.ok (fs2, c, msgs)) := by
        rw [if_pos hex] at h
        exact h
      cases hld : listdir fs sd with
      | none => rw [hld] at h2; simp at h2
      | some items =>
        rw [hld] at h2
        exact mergeItems_no_msgs_aux n ih items sd A fs fs2 c msgs h2
    · rw [if_neg hex] at h
      cases hmk : makedirs fs A with
      | none =>
        rw [hmk] at h
        have h2 : some ((Except.error fs : MergeRes)) = some (Except.ok (fs2, c, msgs)) := h
        simp at h2
      | some fs1 =>
        rw [hmk] at h
        have h2 : (match listdir fs1 sd with
            | none => some (Except.error fs1)
            | some items => mergeItems n sd A fs1 items) =
            some (Except.ok (fs2, c, msgs)) := h
        cases hld : listdir fs1 sd with
        | none => rw [hld] at h2; simp at h2
        | some items =>
          rw [hld] at h2
          exact mergeItems_no_msgs_aux n ih items sd A fs1 fs2 c msgs h2

/-! ## Structural helpers for the merge bridge -/

theorem setReal_getReal_id : ∀ {fs : FSTree} {q : FPath} {t : FSTree},
    fs.getReal q = some t → setReal fs q t = fs := by
  intro fs q
  induction q generalizing fs with
  | nil =>
    intro t h
    simp only [FSTree.getReal, Option.some.injEq] at h
    simp [setReal, h]
  | cons c q ih =>
    intro t h
    cases fs with
    | file => simp [FSTree.getReal] at h
    | link tg b => simp [FSTree.getReal] at h
    | dir cs =>
      simp only [FSTree.getReal] at h
      cases hl : FSTree.lookupChild cs c with
      | none => simp [hl] at h
      | some child =>
        rw [hl] at h
        simp only [setReal, hl, ih h, FSTree.setChild_self_eq hl]

theorem isLinkNode_of_linkFree : ∀ {c : FSTree}, linkFree c = true →
    isLinkNode c = false := by
  intro c h
  cases c with
  | file => rfl
  | dir cs => rfl
  | link tg b => simp [linkFree] at h

theorem depthChildren_mem : ∀ {cs : List (String × FSTree)} {n : String}
    {c : FSTree}, (n, c) ∈ cs → depth c ≤ depthChildren cs := by
  intro cs
  induction cs with
  | nil => intro n c h; simp at h
  | cons kv rest ih =>
    intro n c h
    obtain ⟨m, t⟩ := kv
    simp only [List.mem_cons] at h
    simp only [depthChildren]
    cases h with
    | inl h =>
      cases h
      exact Nat.le_max_left _ _
    | inr h => exact le_trans (ih h) (Nat.le_max_right _ _)

theorem notPrefix_concat {sp tp : FPath} (h1 : ¬ sp <+: tp)
    (n : String) : ¬ sp ++ [n] <+: tp ++ [n] := by
  intro h
  rw [List.prefix_concat_iff] at h
  cases h with
  | inl h =>
    have : sp = tp := by
      have := congrArg List.dropLast h
      simpa using this
    exact h1 (this ▸ List.prefix_refl sp)
  | inr h =>
    exact h1 (List.IsPrefix.trans (List.prefix_append sp [n]) h)


/-! ## Bridge: a completed merge run on a link-free state -/

theorem merge_items_run (fuel : Nat)
    (hf : ∀ (fs : FSTree) (sp tp : FPath) (scs tcs : List (String × FSTree)),
      fs.getReal sp = some (.dir scs) →
      fs.getReal tp = some (.dir tcs) →
      linkFreeChildren scs = true → (scs.map (·.1)).Nodup →
      wfChildren scs = true → linkFreeChildren tcs = true →
      ¬ sp <+: tp → ¬ tp <+: sp →
      depth (.dir scs) ≤ fuel →
      mergeFuel fuel fs sp tp =
        some (.ok (setReal fs tp (.dir (mergeSpecChildren sp scs tcs).1),
          (mergeSpecChildren sp scs tcs).2, []))) :
    ∀ (srem : List (String × FSTree)) (fs : FSTree) (sp tp : FPath)
      (scs0 tcs : List (String × FSTree)),
      fs.getReal sp = some (.dir scs0) →
      fs.getReal tp = some (.dir tcs) →
      (∀ n c, (n, c) ∈ srem → FSTree.lookupChild scs0 n = some c) →
      (srem.map (·.1)).Nodup →
      linkFreeChildren scs0 = true →
      wfChildren scs0 = true →
      (∀ n c, n ∈ srem.map (·.1) → FSTree.lookupChild tcs n = some c →
        linkFree c = true) →
      (∀ n c, (n, c) ∈ srem → depth c ≤ fuel) →
      ¬ sp <+: tp → ¬ tp <+: sp →
      mergeItems fuel sp tp fs (srem.map (·.1)) =
        some (.ok (setReal fs tp (.dir (mergeSpecChildren sp srem tcs).1),
          (mergeSpecChildren sp srem tcs).2, [])) := by
  intro srem
  induction srem with
  | nil =>
    intro fs sp tp scs0 tcs hS hT _ _ _ _ _ _ _ _
    simp only [List.map_nil, mergeItems, mergeSpecChildren]
    rw [setReal_getReal_id hT]
  | cons hd rest ih =>
    obtain ⟨n, c⟩ := hd
    intro fs sp tp scs0 tcs hS hT hmem hnd hlfS hwfS hLF hdep hst hts
    have hlkS : FSTree.lookupChild scs0 n = some c :=
      hmem n c (List.mem_cons_self _ _)
    have hcLF : linkFree c = true := linkFreeChildren_lookup hlfS hlkS
    have hc_nl : isLinkNode c = false := isLinkNode_of_linkFree hcLF
    have hsrc : isdir fs (sp ++ [n]) = isDirNode c :=
      isdir_concat_nonlink hS hlkS hc_nl
    simp only [List.map_cons, List.nodup_cons] at hnd
    obtain ⟨hn_rest, hnd_rest⟩ := hnd
    simp only [List.map_cons]
    unfold mergeItems
    dsimp only
    cases hlkT : FSTree.lookupChild tcs n with
    | none =>
      have hlex : lexists fs (tp ++ [n]) = false := by
        rw [lexists_concat hT n, hlkT]
        rfl
      rw [hlex]
      have hmk : mklinkOp fs (tp ++ [n]) (sp ++ [n]) (isdir fs (sp ++ [n])) =
          some (setReal fs tp
            (.dir (tcs ++ [(n, .link (sp ++ [n]) (isDirNode c))]))) := by
        rw [hsrc]
        exact mklinkOp_eq hT hlkT _ _
      have hexec : execCmd fs
          (.mkLink (tp ++ [n]) (sp ++ [n]) (isdir fs (sp ++ [n]))) =
          (setReal fs tp (.dir (tcs ++ [(n, .link (sp ++ [n]) (isDirNode c))])),
            true) := by
        simp only [execCmd, hmk]
      simp only [Bool.false_eq_true, if_false, hexec]
      have hS1 : (setReal fs tp
          (.dir (tcs ++ [(n, .link (sp ++ [n]) (isDirNode c))]))).getReal sp =
          some (.dir scs0) := by
        rw [getReal_setReal_frame fs tp _ hts hst]
        exact hS
      have hT1 : (setReal fs tp
          (.dir (tcs ++ [(n, .link (sp ++ [n]) (isDirNode c))]))).getReal tp =
          some (.dir (tcs ++ [(n, .link (sp ++ [n]) (isDirNode c))])) :=
        getReal_setReal_self hT _
      have hLF1 : ∀ m c2, m ∈ rest.map (·.1) →
          FSTree.lookupChild (tcs ++ [(n, .link (sp ++ [n]) (isDirNode c))]) m =
            some c2 → linkFree c2 = true := by
        intro m c2 hm hlk
        cases hlk0 : FSTree.lookupChild tcs m with
        | some c3 =>
          rw [FSTree.lookupChild_append_some hlk0] at hlk
          cases hlk
          exact hLF m c2 (by simp [hm]) hlk0
        | none =>
          rw [FSTree.lookupChild_append_none hlk0] at hlk
          have hmn : ¬ (n = m) := fun hh => hn_rest (hh ▸ hm)
          simp only [FSTree.lookupChild, if_neg hmn] at hlk
          simp [FSTree.lookupChild] at hlk
      have hihr := ih (setReal fs tp
          (.dir (tcs ++ [(n, .link (sp ++ [n]) (isDirNode c))]))) sp tp scs0
          (tcs ++ [(n, .link (sp ++ [n]) (isDirNode c))]) hS1 hT1
          (fun m c2 hm => hmem m c2 (List.mem_cons_of_mem _ hm)) hnd_rest
          hlfS hwfS hLF1
          (fun m c2 hm => hdep m c2 (List.mem_cons_of_mem _ hm)) hst hts
      rw [hihr]
      simp only [mergeSpecChildren, hlkT]
      rw [setReal_setReal]
      simp
    | some tc =>
      have hlex : lexists fs (tp ++ [n]) = true := by
        rw [lexists_concat hT n, hlkT]
        rfl
      rw [hlex]
      have htcLF : linkFree tc = true := hLF n tc (by simp) hlkT
      have htc_nl : isLinkNode tc = false := isLinkNode_of_linkFree htcLF
      have htgt : isdir fs (tp ++ [n]) = isDirNode tc :=
        isdir_concat_nonlink hT hlkT htc_nl
      simp only [if_true, hsrc, htgt]
      by_cases hdd : (isDirNode c && isDirNode tc) = true
      · rw [if_pos hdd]
        have hdd2 := hdd
        simp only [Bool.and_eq_true] at hdd2
        have hcd : isDirNode c = true := hdd2.1
        have htcd : isDirNode tc = true := hdd2.2
        cases c with
        | file => simp [isDirNode] at hcd
        | link tg b => simp [linkFree] at hcLF
        | dir ccs =>
        cases tc with
        | file => simp [isDirNode] at htcd
        | link tg b => simp [isLinkNode] at htc_nl
        | dir tccs =>
        have hSc : fs.getReal (sp ++ [n]) = some (.dir ccs) := by
          rw [FSTree.getReal_append, hS]
          simp [FSTree.getReal, hlkS]
        have hTc : fs.getReal (tp ++ [n]) = some (.dir tccs) := by
          rw [FSTree.getReal_append, hT]
          simp [FSTree.getReal, hlkT]
        have hwfc : wfTree (.dir ccs) = true := wfChildren_lookup hwfS hlkS
        simp only [wfTree, Bool.and_eq_true, decide_eq_true_eq] at hwfc
        have hlfc : linkFreeChildren ccs = true := by
          simpa [linkFree] using hcLF
        have hlfTc : linkFreeChildren tccs = true := by
          simpa [linkFree] using htcLF
        have hdc : depth (.dir ccs) ≤ fuel := hdep n _ (List.mem_cons_self _ _)
        have hrec := hf fs (sp ++ [n]) (tp ++ [n]) ccs tccs hSc hTc hlfc hwfc.1
          hwfc.2 hlfTc (notPrefix_concat hst n) (notPrefix_concat hts n) hdc
        rw [hrec, setReal_nested hT hlkT]
        dsimp only
        have hS1 : (setReal fs tp (.dir (FSTree.setChild tcs n
            (.dir (mergeSpecChildren (sp ++ [n]) ccs tccs).1)))).getReal sp =
            some (.dir scs0) := by
          rw [getReal_setReal_frame fs tp _ hts hst]
          exact hS
        have hT1 : (setReal fs tp (.dir (FSTree.setChild tcs n
            (.dir (mergeSpecChildren (sp ++ [n]) ccs tccs).1)))).getReal tp =
            some (.dir (FSTree.setChild tcs n
              (.dir (mergeSpecChildren (sp ++ [n]) ccs tccs).1))) :=
          getReal_setReal_self hT _
        have hLF1 : ∀ m c2, m ∈ rest.map (·.1) →
            FSTree.lookupChild (FSTree.setChild tcs n
              (.dir (mergeSpecChildren (sp ++ [n]) ccs tccs).1)) m = some c2 →
            linkFree c2 = true := by
          intro m c2 hm hlk
          have hmn : m ≠ n := fun hh => hn_rest (hh ▸ hm)
          rw [FSTree.lookupChild_setChild_ne tcs hmn _] at hlk
          exact hLF m c2 (by simp [hm]) hlk
        have hihr := ih (setReal fs tp (.dir (FSTree.setChild tcs n
            (.dir (mergeSpecChildren (sp ++ [n]) ccs tccs).1)))) sp tp scs0
            (FSTree.setChild tcs n
              (.dir (mergeSpecChildren (sp ++ [n]) ccs tccs).1)) hS1 hT1
            (fun m c2 hm => hmem m c2 (List.mem_cons_of_mem _ hm)) hnd_rest
            hlfS hwfS hLF1
            (fun m c2 hm => hdep m c2 (List.mem_cons_of_mem _ hm)) hst hts
        rw [hihr]
        simp only [mergeSpecChildren, hlkT, hdd, if_true, mergeSpec]
        rw [setReal_setReal]
        simp
      · rw [if_neg hdd]
        have hihr := ih fs sp tp scs0 tcs hS hT
            (fun m c2 hm => hmem m c2 (List.mem_cons_of_mem _ hm)) hnd_rest
            hlfS hwfS
            (fun m c2 hm => hLF m c2 (by simp [hm]))
            (fun m c2 hm => hdep m c2 (List.mem_cons_of_mem _ hm)) hst hts
        rw [hihr]
        simp only [mergeSpecChildren, hlkT, hdd, Bool.false_eq_true, if_false]


theorem merge_run1 :
    ∀ (fuel : Nat) (fs : FSTree) (sp tp : FPath)
      (scs tcs : List (String × FSTree)),
      fs.getReal sp = some (.dir scs) →
      fs.getReal tp = some (.dir tcs) →
      linkFreeChildren scs = true → (scs.map (·.1)).Nodup →
      wfChildren scs = true → linkFreeChildren tcs = true →
      ¬ sp <+: tp → ¬ tp <+: sp →
      depth (.dir scs) ≤ fuel →
      mergeFuel fuel fs sp tp =
        some (.ok (setReal fs tp (.dir (mergeSpecChildren sp scs tcs).1),
          (mergeSpecChildren sp scs tcs).2, [])) := by
  intro fuel
  induction fuel with
  | zero =>
    intro fs sp tp scs tcs _ _ _ _ _ _ _ _ hd
    simp [depth] at hd
  | succ m ih =>
    intro fs sp tp scs tcs hS hT hlfS hnd hwfS hlfT hst hts hd
    have hdc : depthChildren scs ≤ m := by
      simp only [depth] at hd
      omega
    unfold mergeFuel
    dsimp only
    have hil : islink fs tp = false := by
      rw [islink_of_getReal hT]
      rfl
    rw [hil]
    simp only [Bool.false_eq_true, if_false]
    have hex : existsPath fs tp = true :=
      existsPath_of_getReal hT (by simp [isLinkNode])
    rw [hex]
    simp only [if_true]
    have hld : listdir fs sp = some (scs.map (·.1)) := listdir_of_getReal hS
    rw [hld]
    exact merge_items_run m ih scs fs sp tp scs tcs hS hT
      (fun n c hm => FSTree.lookupChild_of_mem_nodup hnd hm) hnd hlfS hwfS
      (fun n c _ hlk => linkFreeChildren_lookup hlfT hlk)
      (fun n c hm => le_trans (depthChildren_mem hm) hdc)
      hst hts


/-! ## A merge of a link-free directory onto itself changes nothing -/

theorem self_items (fuel : Nat)
    (hf : ∀ (fs : FSTree) (p : FPath) (ccs : List (String × FSTree)),
      fs.getReal p = some (.dir ccs) → linkFreeChildren ccs = true →
      (ccs.map (·.1)).Nodup → wfChildren ccs = true →
      depth (.dir ccs) ≤ fuel →
      mergeFuel fuel fs p p = some (.ok (fs, 0, []))) :
    ∀ (srem : List (String × FSTree)) (fs : FSTree) (p : FPath)
      (scs0 : List (String × FSTree)),
      fs.getReal p = some (.dir scs0) →
      (∀ n c, (n, c) ∈ srem → FSTree.lookupChild scs0 n = some c) →
      linkFreeChildren scs0 = true →
      wfChildren scs0 = true →
      (∀ n c, (n, c) ∈ srem → depth c ≤ fuel) →
      mergeItems fuel p p fs (srem.map (·.1)) = some (.ok (fs, 0, [])) := by
  intro srem
  induction srem with
  | nil =>
    intro fs p scs0 _ _ _ _ _
    simp [mergeItems]
  | cons hd rest ih =>
    obtain ⟨n, c⟩ := hd
    intro fs p scs0 hS hmem hlf hwf hdep
    have hlkS : FSTree.lookupChild scs0 n = some c :=
      hmem n c (List.mem_cons_self _ _)
    have hcLF : linkFree c = true := linkFreeChildren_lookup hlf hlkS
    have hc_nl : isLinkNode c = false := isLinkNode_of_linkFree hcLF
    have hsrc : isdir fs (p ++ [n]) = isDirNode c :=
      isdir_concat_nonlink hS hlkS hc_nl
    have hlex : lexists fs (p ++ [n]) = true := by
      rw [lexists_concat hS n, hlkS]
      rfl
    simp only [List.map_cons]
    unfold mergeItems
    dsimp only
    rw [hlex]
    simp only [if_true, hsrc]
    cases c with
    | link tg b => simp [linkFree] at hcLF
    | file =>
      simp only [isDirNode, Bool.and_false, Bool.false_eq_true, if_false]
      exact ih fs p scs0 hS
        (fun m c2 hm => hmem m c2 (List.mem_cons_of_mem _ hm)) hlf hwf
        (fun m c2 hm => hdep m c2 (List.mem_cons_of_mem _ hm))
    | dir ccs =>
      simp only [isDirNode, Bool.and_self, if_true]
      have hSc : fs.getReal (p ++ [n]) = some (.dir ccs) := by
        rw [FSTree.getReal_append, hS]
        simp [FSTree.getReal, hlkS]
      have hwfc : wfTree (.dir ccs) = true := wfChildren_lookup hwf hlkS
      simp only [wfTree, Bool.and_eq_true, decide_eq_true_eq] at hwfc
      have hrec := hf fs (p ++ [n]) ccs hSc
        (by simpa [linkFree] using hcLF) hwfc.1 hwfc.2
        (hdep n _ (List.mem_cons_self _ _))
      rw [hrec]
      dsimp only
      rw [ih fs p scs0 hS
        (fun m c2 hm => hmem m c2 (List.mem_cons_of_mem _ hm)) hlf hwf
        (fun m c2 hm => hdep m c2 (List.mem_cons_of_mem _ hm))]
      simp

theorem self_merge :
    ∀ (fuel : Nat) (fs : FSTree) (p : FPath) (ccs : List (String × FSTree)),
      fs.getReal p = some (.dir ccs) → linkFreeChildren ccs = true →
      (ccs.map (·.1)).Nodup → wfChildren ccs = true →
      depth (.dir ccs) ≤ fuel →
      mergeFuel fuel fs p p = some (.ok (fs, 0, [])) := by
  intro fuel
  induction fuel with
  | zero =>
    intro fs p ccs _ _ _ _ hd
    simp [depth] at hd
  | succ m ih =>
    intro fs p ccs hS hlf hnd hwf hd
    have hdc : depthChildren ccs ≤ m := by
      simp only [depth] at hd
      omega
    unfold mergeFuel
    dsimp only
    have hil : islink fs p = false := by
      rw [islink_of_getReal hS]
      rfl
    rw [hil]
    simp only [Bool.false_eq_true, if_false]
    have hex : existsPath fs p = true :=
      existsPath_of_getReal hS (by simp [isLinkNode])
    rw [hex]
    simp only [if_true]
    rw [listdir_of_getReal hS]
    exact self_items m ih ccs fs p ccs hS
      (fun n c hm => FSTree.lookupChild_of_mem_nodup hnd hm) hlf hwf
      (fun n c hm => le_trans (depthChildren_mem hm) hdc)

theorem merge_via_self_link :
    ∀ (fuel : Nat) (fs : FSTree) (p q : FPath) (ccs : List (String × FSTree)),
      islink fs q = true → readlink fs q = some p →
      fs.getReal p = some (.dir ccs) → linkFreeChildren ccs = true →
      (ccs.map (·.1)).Nodup → wfChildren ccs = true →
      depth (.dir ccs) ≤ fuel →
      mergeFuel fuel fs p q = some (.ok (fs, 0, [])) := by
  intro fuel
  cases fuel with
  | zero =>
    intro fs p q ccs _ _ _ _ _ _ hd
    simp [depth] at hd
  | succ m =>
    intro fs p q ccs hil hrl hS hlf hnd hwf hd
    have hdc : depthChildren ccs ≤ m := by
      simp only [depth] at hd
      omega
    unfold mergeFuel
    dsimp only
    rw [hil]
    simp only [if_true, hrl, Option.getD_some]
    have hex : existsPath fs p = true :=
      existsPath_of_getReal hS (by simp [isLinkNode])
    rw [hex]
    simp only [if_true]
    rw [listdir_of_getReal hS]
    exact self_items m
      (fun fs2 p2 ccs2 h1 h2 h3 h4 h5 => self_merge m fs2 p2 ccs2 h1 h2 h3 h4 h5)
      ccs fs p ccs hS
      (fun n c hm => FSTree.lookupChild_of_mem_nodup hnd hm) hlf hwf
      (fun n c hm => le_trans (depthChildren_mem hm) hdc)

/-! ## The second run over a covered target is a no-op -/

theorem run2_items (fuel : Nat)
    (hf : ∀ (fs : FSTree) (sp tp : FPath) (scs tcs : List (String × FSTree)),
      fs.getReal sp = some (.dir scs) →
      fs.getReal tp = some (.dir tcs) →
      linkFreeChildren scs = true → (scs.map (·.1)).Nodup →
      wfChildren scs = true → Covered sp scs tcs →
      depth (.dir scs) ≤ fuel →
      mergeFuel fuel fs sp tp = some (.ok (fs, 0, []))) :
    ∀ (srem : List (String × FSTree)) (fs : FSTree) (sp tp : FPath)
      (scs0 tcs : List (String × FSTree)),
      fs.getReal sp = some (.dir scs0) →
      fs.getReal tp = some (.dir tcs) →
      (∀ n c, (n, c) ∈ srem → FSTree.lookupChild scs0 n = some c) →
      linkFreeChildren scs0 = true →
      wfChildren scs0 = true →
      Covered sp scs0 tcs →
      (∀ n c, (n, c) ∈ srem → depth c ≤ fuel) →
      mergeItems fuel sp tp fs (srem.map (·.1)) = some (.ok (fs, 0, [])) := by
  intro srem
  induction srem with
  | nil =>
    intro fs sp tp scs0 tcs _ _ _ _ _ _ _
    simp [mergeItems]
  | cons hd rest ih =>
    obtain ⟨n, c⟩ := hd
    intro fs sp tp scs0 tcs hS hT hmem hlf hwf hcov hdep
    have hlkS : FSTree.lookupChild scs0 n = some c :=
      hmem n c (List.mem_cons_self _ _)
    have hcLF : linkFree c = true := linkFreeChildren_lookup hlf hlkS
    have hc_nl : isLinkNode c = false := isLinkNode_of_linkFree hcLF
    have hsrc : isdir fs (sp ++ [n]) = isDirNode c :=
      isdir_concat_nonlink hS hlkS hc_nl
    obtain ⟨tc, hlkT, hdir⟩ := by
      unfold Covered at hcov
      exact hcov n c hlkS
    have hlex : lexists fs (tp ++ [n]) = true := by
      rw [lexists_concat hT n, hlkT]
      rfl
    have hih := ih fs sp tp scs0 tcs hS hT
      (fun m c2 hm => hmem m c2 (List.mem_cons_of_mem _ hm)) hlf hwf hcov
      (fun m c2 hm => hdep m c2 (List.mem_cons_of_mem _ hm))
    simp only [List.map_cons]
    unfold mergeItems
    dsimp only
    rw [hlex]
    simp only [if_true, hsrc]
    cases c with
    | link tg b => simp [linkFree] at hcLF
    | file =>
      simp only [isDirNode, Bool.false_and, Bool.false_eq_true, if_false]
      exact hih
    | dir ccs =>
      simp only [isDirNode, Bool.true_and]
      have hSc : fs.getReal (sp ++ [n]) = some (.dir ccs) := by
        rw [FSTree.getReal_append, hS]
        simp [FSTree.getReal, hlkS]
      have hwfc : wfTree (.dir ccs) = true := wfChildren_lookup hwf hlkS
      simp only [wfTree, Bool.and_eq_true, decide_eq_true_eq] at hwfc
      have hlfc : linkFreeChildren ccs = true := by
        simpa [linkFree] using hcLF
      have hdc : depth (.dir ccs) ≤ fuel := hdep n _ (List.mem_cons_self _ _)
      rcases hdir ccs rfl with hlink | ⟨tccs, htc, hcovc⟩ | hfile
      · subst hlink
        have htgt : isdir fs (tp ++ [n]) = true := by
          unfold isdir
          rw [statNode_concat_link hT hlkT hSc (by simp [isLinkNode])]
          rfl
        rw [htgt]
        simp only [if_true]
        have hil : islink fs (tp ++ [n]) = true := by
          rw [islink_concat_node hT hlkT]
          rfl
        have hrl : readlink fs (tp ++ [n]) = some (sp ++ [n]) :=
          readlink_concat_link hT hlkT
        rw [merge_via_self_link fuel fs (sp ++ [n]) (tp ++ [n]) ccs hil hrl hSc
          hlfc hwfc.1 hwfc.2 hdc]
        dsimp only
        rw [hih]
        simp
      · subst htc
        have htgt : isdir fs (tp ++ [n]) = true := by
          rw [isdir_concat_nonlink hT hlkT (by simp [isLinkNode])]
          rfl
        rw [htgt]
        simp only [if_true]
        have hTc : fs.getReal (tp ++ [n]) = some (.dir tccs) := by
          rw [FSTree.getReal_append, hT]
          simp [FSTree.getReal, hlkT]
        rw [hf fs (sp ++ [n]) (tp ++ [n]) ccs tccs hSc hTc hlfc hwfc.1 hwfc.2
          hcovc hdc]
        dsimp only
        rw [hih]
        simp
      · subst hfile
        have htgt : isdir fs (tp ++ [n]) = false := by
          rw [isdir_concat_nonlink hT hlkT (by simp [isLinkNode])]
          rfl
        rw [htgt]
        simp only [Bool.false_eq_true, if_false]
        exact hih

theorem merge_run2 :
    ∀ (fuel : Nat) (fs : FSTree) (sp tp : FPath)
      (scs tcs : List (String × FSTree)),
      fs.getReal sp = some (.dir scs) →
      fs.getReal tp = some (.dir tcs) →
      linkFreeChildren scs = true → (scs.map (·.1)).Nodup →
      wfChildren scs = true → Covered sp scs tcs →
      depth (.dir scs) ≤ fuel →
      mergeFuel fuel fs sp tp = some (.ok (fs, 0, [])) := by
  intro fuel
  induction fuel with
  | zero =>
    intro fs sp tp scs tcs _ _ _ _ _ _ hd
    simp [depth] at hd
  | succ m ih =>
    intro fs sp tp scs tcs hS hT hlf hnd hwf hcov hd
    have hdc : depthChildren scs ≤ m := by
      simp only [depth] at hd
      omega
    unfold mergeFuel
    dsimp only
    have hil : islink fs tp = false := by
      rw [islink_of_getReal hT]
      rfl
    rw [hil]
    simp only [Bool.false_eq_true, if_false]
    have hex : existsPath fs tp = true :=
      existsPath_of_getReal hT (by simp [isLinkNode])
    rw [hex]
    simp only [if_true]
    rw [listdir_of_getReal hS]
    exact run2_items m ih scs fs sp tp scs tcs hS hT
      (fun n c hm => FSTree.lookupChild_of_mem_nodup hnd hm) hlf hwf hcov
      (fun n c hm => le_trans (depthChildren_mem hm) hdc)


/-! ## The merged listing covers the source listing -/

theorem mSC_frame :
    ∀ (srem : List (String × FSTree)) (sp : FPath)
      (tcs : List (String × FSTree)) (m : String),
      m ∉ srem.map (·.1) →
      FSTree.lookupChild (mergeSpecChildren sp srem tcs).1 m =
        FSTree.lookupChild tcs m := by
  intro srem
  induction srem with
  | nil => intro sp tcs m _; rfl
  | cons hd rest ih =>
    obtain ⟨n, c⟩ := hd
    intro sp tcs m hm
    simp only [List.map_cons, List.mem_cons, not_or] at hm
    obtain ⟨hmn, hmr⟩ := hm
    unfold mergeSpecChildren
    cases hlkT : FSTree.lookupChild tcs n with
    | none =>
      dsimp only
      rw [ih sp _ m hmr]
      cases hlk0 : FSTree.lookupChild tcs m with
      | some c3 => rw [FSTree.lookupChild_append_some hlk0]
      | none =>
        rw [FSTree.lookupChild_append_none hlk0]
        simp only [FSTree.lookupChild]
        rw [if_neg (fun hh => hmn hh.symm)]
    | some tc =>
      dsimp only
      by_cases hdd : (isDirNode c && isDirNode tc) = true
      · rw [if_pos hdd]
        dsimp only
        rw [ih sp _ m hmr]
        exact FSTree.lookupChild_setChild_ne tcs hmn _
      · rw [if_neg hdd]
        exact ih sp tcs m hmr

theorem mSC_covers_bounded :
    ∀ (N : Nat) (scs : List (String × FSTree)), sizeOf scs ≤ N →
      ∀ (sp : FPath) (tcs : List (String × FSTree)),
      (scs.map (·.1)).Nodup → wfChildren scs = true →
      linkFreeChildren scs = true →
      (∀ n c, n ∈ scs.map (·.1) → FSTree.lookupChild tcs n = some c →
        linkFree c = true) →
      Covered sp scs (mergeSpecChildren sp scs tcs).1 := by
  intro N
  induction N with
  | zero =>
    intro scs hsz
    cases scs with
    | nil =>
      intro sp tcs _ _ _ _
      unfold Covered
      intro n c hlk
      simp [FSTree.lookupChild] at hlk
    | cons hd tl => simp at hsz
  | succ N ihN =>
    intro scs hsz sp tcs hnd hwf hlf hLF
    cases scs with
    | nil =>
      unfold Covered
      intro n c hlk
      simp [FSTree.lookupChild] at hlk
    | cons hd rest =>
    obtain ⟨n, c⟩ := hd
    simp only [List.map_cons, List.nodup_cons] at hnd
    obtain ⟨hn_rest, hnd_rest⟩ := hnd
    have hsz_rest : sizeOf rest ≤ N := by
      simp only [List.cons.sizeOf_spec] at hsz
      omega
    have hcLF : linkFree c = true := by
      simp only [linkFreeChildren, Bool.and_eq_true] at hlf
      exact hlf.1
    have hlf_rest : linkFreeChildren rest = true := by
      simp only [linkFreeChildren, Bool.and_eq_true] at hlf
      exact hlf.2
    have hwfc : wfTree c = true := by
      simp only [wfChildren, Bool.and_eq_true] at hwf
      exact hwf.1
    have hwf_rest : wfChildren rest = true := by
      simp only [wfChildren, Bool.and_eq_true] at hwf
      exact hwf.2
    unfold Covered
    intro m c' hlk
    simp only [FSTree.lookupChild] at hlk
    by_cases hmn : n = m
    · subst hmn
      rw [if_pos rfl] at hlk
      cases hlk
      unfold mergeSpecChildren
      cases hlkT : FSTree.lookupChild tcs n with
      | none =>
        dsimp only
        refine ⟨.link (sp ++ [n]) (isDirNode c), ?_, ?_⟩
        · rw [mSC_frame rest sp _ n hn_rest]
          rw [FSTree.lookupChild_append_none hlkT]
          simp [FSTree.lookupChild]
        · intro ccs hc
          subst hc
          left
          rfl
      | some tc =>
        dsimp only
        have htcLF : linkFree tc = true := hLF n tc (by simp) hlkT
        by_cases hdd : (isDirNode c && isDirNode tc) = true
        · rw [if_pos hdd]
          dsimp only
          have hdd2 := hdd
          simp only [Bool.and_eq_true] at hdd2
          cases c with
          | file => simp [isDirNode] at hdd2
          | link tg b => simp [linkFree] at hcLF
          | dir ccs =>
          cases tc with
          | file => simp [isDirNode] at hdd2
          | link tg b => simp [linkFree] at htcLF
          | dir tccs =>
          refine ⟨.dir (mergeSpecChildren (sp ++ [n]) ccs tccs).1, ?_, ?_⟩
          · rw [mSC_frame rest sp _ n hn_rest]
            rw [FSTree.lookupChild_setChild_self hlkT]
            simp [mergeSpec]
          · intro ccs2 hc
            cases hc
            right
            left
            refine ⟨(mergeSpecChildren (sp ++ [n]) ccs tccs).1, by simp [mergeSpec], ?_⟩
            have hszc : sizeOf ccs ≤ N := by
              simp only [List.cons.sizeOf_spec, Prod.mk.sizeOf_spec,
                FSTree.dir.sizeOf_spec] at hsz
              omega
            simp only [wfTree, Bool.and_eq_true, decide_eq_true_eq] at hwfc
            exact ihN ccs hszc (sp ++ [n]) tccs hwfc.1 hwfc.2
              (by simpa [linkFree] using hcLF)
              (fun k ck _ hlkk => linkFreeChildren_lookup
                (by simpa [linkFree] using htcLF) hlkk)
        · rw [if_neg hdd]
          refine ⟨tc, ?_, ?_⟩
          · rw [mSC_frame rest sp tcs n hn_rest]
            exact hlkT
          · intro ccs hc
            subst hc
            right
            right
            simp only [isDirNode, Bool.true_and] at hdd
            cases tc with
            | file => rfl
            | link tg b => simp [linkFree] at htcLF
            | dir tccs => simp [isDirNode] at hdd
    · rw [if_neg hmn] at hlk
      have hmem' : m ∈ rest.map (·.1) := by
        have := FSTree.lookupChild_isSome_of_mem (FSTree.lookupChild_mem hlk)
        exact List.mem_map.mpr ⟨(m, c'), FSTree.lookupChild_mem hlk, rfl⟩
      unfold mergeSpecChildren
      cases hlkT : FSTree.lookupChild tcs n with
      | none =>
        dsimp only
        have hcov_rest := ihN rest hsz_rest sp
          (tcs ++ [(n, .link (sp ++ [n]) (isDirNode c))]) hnd_rest hwf_rest
          hlf_rest
          (fun k ck hk hlkk => by
            cases hlk0 : FSTree.lookupChild tcs k with
            | some c3 =>
              rw [FSTree.lookupChild_append_some hlk0] at hlkk
              cases hlkk
              exact hLF k ck (by simp [hk]) hlk0
            | none =>
              rw [FSTree.lookupChild_append_none hlk0] at hlkk
              have hkn : ¬ (n = k) := fun hh => hn_rest (hh ▸ hk)
              simp only [FSTree.lookupChild, if_neg hkn] at hlkk
              simp [FSTree.lookupChild] at hlkk)
        unfold Covered at hcov_rest
        exact hcov_rest m c' hlk
      | some tc =>
        dsimp only
        by_cases hdd : (isDirNode c && isDirNode tc) = true
        · rw [if_pos hdd]
          dsimp only
          have hcov_rest := ihN rest hsz_rest sp
            (FSTree.setChild tcs n (mergeSpec (sp ++ [n]) c tc).1) hnd_rest
            hwf_rest hlf_rest
            (fun k ck hk hlkk => by
              have hkn : k ≠ n := fun hh => hn_rest (hh ▸ hk)
              rw [FSTree.lookupChild_setChild_ne tcs hkn _] at hlkk
              exact hLF k ck (by simp [hk]) hlkk)
          unfold Covered at hcov_rest
          exact hcov_rest m c' hlk
        · rw [if_neg hdd]
          have hcov_rest := ihN rest hsz_rest sp tcs hnd_rest hwf_rest hlf_rest
            (fun k ck hk hlkk => hLF k ck (by simp [hk]) hlkk)
          unfold Covered at hcov_rest
          exact hcov_rest m c' hlk


/-! ## C1: idempotence of the merge -/

/-- C1: merge is *not* idempotent on every state (the spec's universal claim
fails, see the counterexample); the corrected statement: on a state whose
source and target subtrees are link-free and whose source and target paths are
disjoint, the first run completes with some count and no error, and an
immediate second run with no intervening change creates no additional links,
returns 0 and leaves the filesystem unchanged. -/
theorem C1_merge_idempotent_linkfree
    (fuel : Nat) (fs : FSTree) (sp tp : FPath)
    (scs tcs : List (String × FSTree))
    (hS : fs.getReal sp = some (.dir scs))
    (hT : fs.getReal tp = some (.dir tcs))
    (hlfS : linkFreeChildren scs = true)
    (hnd : (scs.map (·.1)).Nodup)
    (hwfS : wfChildren scs = true)
    (hlfT : linkFreeChildren tcs = true)
    (hst : ¬ sp <+: tp) (hts : ¬ tp <+: sp)
    (hd : depth (.dir scs) ≤ fuel) :
    ∃ fs1 n1,
      mergeFuel fuel fs sp tp = some (.ok (fs1, n1, [])) ∧
      mergeFuel fuel fs1 sp tp = some (.ok (fs1, 0, [])) := by
  refine ⟨setReal fs tp (.dir (mergeSpecChildren sp scs tcs).1),
    (mergeSpecChildren sp scs tcs).2,
    merge_run1 fuel fs sp tp scs tcs hS hT hlfS hnd hwfS hlfT hst hts hd, ?_⟩
  apply merge_run2 fuel _ sp tp scs (mergeSpecChildren sp scs tcs).1
  · rw [getReal_setReal_frame fs tp _ hts hst]
    exact hS
  · exact getReal_setReal_self hT _
  · exact hlfS
  · exact hnd
  · exact hwfS
  · exact mSC_covers_bounded (sizeOf scs) scs le_rfl sp tcs hnd hwfS hlfS
      (fun n c _ hlk => linkFreeChildren_lookup hlfT hlk)
  · exact hd

/-- Witness: the corrected C1 statement at a concrete link-free state. -/
theorem C1_merge_idempotent_linkfree_witness :
    ∃ fs1 n1,
      mergeFuel 2 wFs ["s"] ["t"] = some (.ok (fs1, n1, [])) ∧
      mergeFuel 2 fs1 ["s"] ["t"] = some (.ok (fs1, 0, [])) :=
  C1_merge_idempotent_linkfree 2 wFs ["s"] ["t"] [("a", .file)] []
    rfl rfl rfl (by simp) (by simp [wfChildren, wfTree]) rfl
    (by decide) (by decide) (by simp [depth, depthChildren])

/-- Counterexample to the literal C1: on `cxFs` (the target holds a directory
link aliasing the source) the first run returns 2 but the immediate second run
creates one more link and returns 1, not 0. -/
theorem C1_merge_second_run_nonzero :
    mergeFuel 6 cxFs ["S"] ["T"] = some (.ok (cxFs1, 2, [])) ∧
    mergeFuel 6 cxFs1 ["S"] ["T"] = some (.ok (cxFs2, 1, [])) := by
  constructor
  · simp [mergeFuel, mergeItems, canon, canonAux, lstatNode, statNode, lexists,
      existsPath, isdir, islink, readlink, listdir, modifyReal, mklinkOp,
      execCmd, removeEntry, makedirs, makedirsAux, MAX_HOPS, FSTree.lookupChild,
      FSTree.setChild, FSTree.eraseChild, FSTree.getReal, isDirNode, isLinkNode,
      cxFs, cxFs1]
  · simp [mergeFuel, mergeItems, canon, canonAux, lstatNode, statNode, lexists,
      existsPath, isdir, islink, readlink, listdir, modifyReal, mklinkOp,
      execCmd, removeEntry, makedirs, makedirsAux, MAX_HOPS, FSTree.lookupChild,
      FSTree.setChild, FSTree.eraseChild, FSTree.getReal, isDirNode, isLinkNode,
      cxFs1, cxFs2]


/-! ## C2: collision handling -/

theorem mSC_lookup_skip :
    ∀ (scs : List (String × FSTree)) (sp : FPath)
      (tcs : List (String × FSTree)) (n : String) (c tc : FSTree),
      (scs.map (·.1)).Nodup →
      FSTree.lookupChild scs n = some c →
      FSTree.lookupChild tcs n = some tc →
      (isDirNode c && isDirNode tc) = false →
      FSTree.lookupChild (mergeSpecChildren sp scs tcs).1 n = some tc := by
  intro scs
  induction scs with
  | nil =>
    intro sp tcs n c tc _ hlk _ _
    simp [FSTree.lookupChild] at hlk
  | cons hd rest ih =>
    obtain ⟨m, cm⟩ := hd
    intro sp tcs n c tc hnd hlk htn hnm
    simp only [List.map_cons, List.nodup_cons] at hnd
    obtain ⟨hm_rest, hnd_rest⟩ := hnd
    simp only [FSTree.lookupChild] at hlk
    unfold mergeSpecChildren
    by_cases hmn : m = n
    · subst hmn
      rw [if_pos rfl] at hlk
      cases hlk
      rw [htn]
      dsimp only
      rw [if_neg (by simp [hnm])]
      rw [mSC_frame rest sp tcs m hm_rest]
      exact htn
    · rw [if_neg hmn] at hlk
      cases hlkTm : FSTree.lookupChild tcs m with
      | none =>
        dsimp only
        apply ih sp _ n c tc hnd_rest hlk _ hnm
        rw [FSTree.lookupChild_append_some htn]
      | some tcm =>
        dsimp only
        by_cases hdd : (isDirNode cm && isDirNode tcm) = true
        · rw [if_pos hdd]
          dsimp only
          apply ih sp _ n c tc hnd_rest hlk _ hnm
          rw [FSTree.lookupChild_setChild_ne tcs (fun hh => hmn hh.symm) _]
          exact htn
        · rw [if_neg hdd]
          exact ih sp tcs n c tc hnd_rest hlk htn hnm

/-- C2: on a name collision with a non-mergeable existing target entry the
merge does skip the item, raises no error, leaves the colliding entry
unchanged and continues with the remaining siblings — but contrary to the
specification the skip is *silent*: the completed run reports nothing through
the status callback (its message list is empty; the code's skip branch sends
no message). -/
theorem C2_collision_skips_silently
    (fuel : Nat) (fs : FSTree) (sp tp : FPath)
    (scs tcs : List (String × FSTree))
    (hS : fs.getReal sp = some (.dir scs))
    (hT : fs.getReal tp = some (.dir tcs))
    (hlfS : linkFreeChildren scs = true)
    (hnd : (scs.map (·.1)).Nodup)
    (hwfS : wfChildren scs = true)
    (hlfT : linkFreeChildren tcs = true)
    (hst : ¬ sp <+: tp) (hts : ¬ tp <+: sp)
    (hd : depth (.dir scs) ≤ fuel)
    (n : String) (c tc : FSTree)
    (hcn : FSTree.lookupChild scs n = some c)
    (htn : FSTree.lookupChild tcs n = some tc)
    (hnm : (isDirNode c && isDirNode tc) = false) :
    ∃ fs' cnt,
      mergeFuel fuel fs sp tp = some (.ok (fs', cnt, [])) ∧
      fs'.getReal (tp ++ [n]) = some tc := by
  refine ⟨setReal fs tp (.dir (mergeSpecChildren sp scs tcs).1),
    (mergeSpecChildren sp scs tcs).2,
    merge_run1 fuel fs sp tp scs tcs hS hT hlfS hnd hwfS hlfT hst hts hd, ?_⟩
  rw [FSTree.getReal_append, getReal_setReal_self hT _]
  simp only [Option.some_bind, FSTree.getReal]
  rw [mSC_lookup_skip scs sp tcs n c tc hnd hcn htn hnm]

/-- Witness: the C2 statement at the concrete collision state `colFs`. -/
theorem C2_collision_skips_silently_witness :
    ∃ fs' cnt,
      mergeFuel 3 colFs ["s"] ["t"] = some (.ok (fs', cnt, [])) ∧
      fs'.getReal (["t"] ++ ["d"]) = some FSTree.file :=
  C2_collision_skips_silently 3 colFs ["s"] ["t"]
    [("d", .dir [("z", .file)]), ("f", .file)] [("d", .file)]
    rfl rfl rfl (by simp) (by simp [wfChildren, wfTree]) rfl
    (by decide) (by decide) (by simp [depth, depthChildren])
    "d" (.dir [("z", .file)]) .file rfl rfl rfl

/-- Counterexample to the literal C2: the completed run on `colFs` skipped the
colliding `d` and continued with `f`, but its status-callback transcript is
empty — no skip was reported. -/
theorem C2_collision_not_reported :
    mergeFuel 3 colFs ["s"] ["t"] = some (.ok (colFs1, 1, [])) := by
  simp [mergeFuel, mergeItems, canon, canonAux, lstatNode, statNode, lexists,
    existsPath, isdir, islink, readlink, listdir, modifyReal, mklinkOp,
    execCmd, removeEntry, makedirs, makedirsAux, MAX_HOPS, FSTree.lookupChild,
    FSTree.setChild, FSTree.eraseChild, FSTree.getReal, isDirNode, isLinkNode,
    colFs, colFs1]


/-! ## C3: what the engine may remove -/

theorem cleanup_exec_cases
    {fs : FSTree} {target : FPath} {tcs : List (String × FSTree)}
    (hT : fs.getReal target = some (.dir tcs)) {item : String}
    {lt : FPath} {b : Bool}
    (hlk : FSTree.lookupChild tcs item = some (.link lt b)) (d : Bool) :
    (execCmd fs (if d then .rmDir (target ++ [item])
      else .del (target ++ [item]))).1 = fs ∨
    (execCmd fs (if d then .rmDir (target ++ [item])
      else .del (target ++ [item]))).1 =
      setReal fs target (.dir (FSTree.eraseChild tcs item)) := by
  have hls : lstatNode fs (target ++ [item]) = some (.link lt b) := by
    rw [lstatNode_concat hT item, hlk]
  have hrm : removeEntry fs (target ++ [item]) =
      some (setReal fs target (.dir (FSTree.eraseChild tcs item))) :=
    removeEntry_eq hT hlk
  cases d with
  | true =>
    simp only [if_true, execCmd]
    unfold rmdirOp
    rw [hls]
    dsimp only
    cases b with
    | true =>
      simp only [if_true, hrm]
      right
      trivial
    | false =>
      simp only [Bool.false_eq_true, if_false]
      left
      trivial
  | false =>
    simp only [Bool.false_eq_true, if_false, execCmd]
    unfold delOp
    rw [hls]
    dsimp only
    cases b with
    | true =>
      simp only [if_true]
      left
      trivial
    | false =>
      simp only [Bool.false_eq_true, if_false, hrm]
      right
      trivial

theorem cleanupItems_preserves :
    ∀ (items : List String) (fs : FSTree) (source target : FPath)
      (tcs : List (String × FSTree)) (m : String) (tc : FSTree),
      fs.getReal target = some (.dir tcs) →
      FSTree.lookupChild tcs m = some tc → isLinkNode tc = false →
      (cleanupItems source target fs items).getReal (target ++ [m]) =
        some tc := by
  intro items
  induction items with
  | nil =>
    intro fs source target tcs m tc hT hlk hnl
    unfold cleanupItems
    rw [FSTree.getReal_append, hT]
    simp [FSTree.getReal, hlk]
  | cons item rest ih =>
    intro fs source target tcs m tc hT hlk hnl
    unfold cleanupItems
    dsimp only
    cases hlki : FSTree.lookupChild tcs item with
    | none =>
      have hil : islink fs (target ++ [item]) = false := islink_concat_none hT hlki
      rw [hil]
      simp only [Bool.false_eq_true, if_false]
      exact ih fs source target tcs m tc hT hlk hnl
    | some ci =>
      have hil : islink fs (target ++ [item]) = isLinkNode ci :=
        islink_concat_node hT hlki
      cases ci with
      | file =>
        rw [hil]
        simp only [isLinkNode, Bool.false_eq_true, if_false]
        exact ih fs source target tcs m tc hT hlk hnl
      | dir cs2 =>
        rw [hil]
        simp only [isLinkNode, Bool.false_eq_true, if_false]
        exact ih fs source target tcs m tc hT hlk hnl
      | link lt b =>
        rw [hil]
        simp only [isLinkNode, if_true]
        have hrl : readlink fs (target ++ [item]) = some lt :=
          readlink_concat_link hT hlki
        rw [hrl]
        dsimp only
        by_cases hpre : (normcase source).isPrefixOf (normcase lt) = true
        · rw [if_pos hpre]
          have hne : m ≠ item := by
            intro hh
            subst hh
            rw [hlk] at hlki
            cases hlki
            simp [isLinkNode] at hnl
          rcases cleanup_exec_cases hT hlki (isdir fs (target ++ [item]))
            with hkeep | hrem
          · rw [hkeep]
            exact ih fs source target tcs m tc hT hlk hnl
          · rw [hrem]
            apply ih _ source target (FSTree.eraseChild tcs item) m tc
            · exact getReal_setReal_self hT _
            · rw [FSTree.lookupChild_eraseChild_ne tcs hne]
              exact hlk
            · exact hnl
        · rw [if_neg hpre]
          exact ih fs source target tcs m tc hT hlk hnl

/-- C3: the claim is too broad — the Deleted-event path removes any target
entry at the event's name, including real user files the engine never created
(see the counterexample).  What does hold, corrected: the source-removal
cleanup (`cleanup_source_symlinks`) touches only symlink entries — any real
(non-link) entry of the target survives a cleanup pass unchanged. -/
theorem C3_cleanup_preserves_real_entries
    (fs : FSTree) (source target : FPath) (tcs : List (String × FSTree))
    (hT : fs.getReal target = some (.dir tcs))
    (m : String) (tc : FSTree)
    (hlk : FSTree.lookupChild tcs m = some tc)
    (hnl : isLinkNode tc = false) :
    (cleanupSourceSymlinks fs source target).getReal (target ++ [m]) =
      some tc := by
  unfold cleanupSourceSymlinks
  rw [listdir_of_getReal hT]
  exact cleanupItems_preserves (tcs.map (·.1)) fs source target tcs m tc hT
    hlk hnl

/-- Witness: a cleanup pass over `delFs` leaves the real file `t\\a` in
place. -/
theorem C3_cleanup_preserves_real_entries_witness :
    (cleanupSourceSymlinks delFs ["s"] ["t"]).getReal (["t"] ++ ["a"]) =
      some FSTree.file :=
  C3_cleanup_preserves_real_entries delFs ["s"] ["t"] [("a", .file)]
    rfl "a" .file rfl rfl

/-- Counterexample to the literal C3: a Deleted notification makes the engine
delete the target's real file `a` — an entry that is not a link and that the
engine did not create. -/
theorem C3_on_deleted_removes_real_file :
    delFs.getReal ["t", "a"] = some .file ∧
    islink delFs ["t", "a"] = false ∧
    onDeleted ["s"] ["t"] delFs ⟨["s", "a"], false⟩ =
      (.dir [("s", .dir []), ("t", .dir [])], ["Removed: a"],
        [Cmd.del ["t", "a"]]) := by
  refine ⟨rfl, ?_, ?_⟩
  · simp [islink, lstatNode, canon, canonAux, MAX_HOPS, delFs,
      FSTree.lookupChild, FSTree.getReal, isLinkNode]
  · simp [onDeleted, isDirectChild, eqCI, lastName, lexists, isdir, islink,
      lstatNode, statNode, canon, canonAux, MAX_HOPS, delFs, execCmd, delOp,
      rmdirOp, removeEntry, modifyReal, FSTree.lookupChild, FSTree.setChild,
      FSTree.eraseChild, FSTree.getReal, isDirNode, isLinkNode, pathText]


/-! ## C5: removal-type selection on Deleted events -/

theorem isDirectChild_concat (source : FPath) (name : String) :
    isDirectChild source (source ++ [name]) = true := by
  simp only [isDirectChild, List.length_append, List.length_cons,
    List.length_nil, beq_iff_eq, Bool.and_eq_true, List.all_eq_true]
  constructor
  · trivial
  · intro ab hab
    have : ab.1 = ab.2 := by
      induction source with
      | nil => simp [List.zip] at hab
      | cons x xs ih =>
        simp only [List.cons_append, List.zip_cons_cons, List.mem_cons] at hab
        cases hab with
        | inl h => rw [h]
        | inr h => exact ih h
    rw [this]
    simp [eqCI]

theorem lastName_concat (p : FPath) (name : String) :
    lastName (p ++ [name]) = name := by
  simp [lastName, List.getLastD_concat]

/-- C5: corrected — the choice between `rmdir` and `del /f` is made from
`os.path.isdir`, which *dereferences* the entry (the spec's "entry's own
type, without dereferencing" is wrong; see the counterexample, where a
file-type link to a directory gets the directory-removal command).  The
safety half of the claim does hold for directory links: the entry's own node
is a link, `isdir` reports the dereferenced type `true`, the handler issues
`rmdir`, and that removes exactly the link entry while the linked-to real
directory keeps its contents. -/
theorem C5_removal_dereferences_but_spares_target
    (fs : FSTree) (source target lt : FPath)
    (tcs lcs : List (String × FSTree)) (name : String)
    (hT : fs.getReal target = some (.dir tcs))
    (hlk : FSTree.lookupChild tcs name = some (.link lt true))
    (hL : fs.getReal lt = some (.dir lcs))
    (h1 : ¬ target <+: lt) (h2 : ¬ lt <+: target) :
    lstatNode fs (target ++ [name]) = some (.link lt true) ∧
    isdir fs (target ++ [name]) = true ∧
    onDeleted source target fs ⟨source ++ [name], true⟩ =
      (setReal fs target (.dir (FSTree.eraseChild tcs name)),
        ["Removed: " ++ name], [Cmd.rmDir (target ++ [name])]) ∧
    (setReal fs target
      (.dir (FSTree.eraseChild tcs name))).getReal lt = some (.dir lcs) := by
  have hls : lstatNode fs (target ++ [name]) = some (.link lt true) := by
    rw [lstatNode_concat hT name, hlk]
  have hisd : isdir fs (target ++ [name]) = true := by
    unfold isdir
    rw [statNode_concat_link hT hlk hL (by simp [isLinkNode])]
    rfl
  have hlex : lexists fs (target ++ [name]) = true := by
    unfold lexists
    rw [hls]
    rfl
  have hrm : removeEntry fs (target ++ [name]) =
      some (setReal fs target (.dir (FSTree.eraseChild tcs name))) :=
    removeEntry_eq hT hlk
  refine ⟨hls, hisd, ?_, ?_⟩
  · unfold onDeleted
    rw [isDirectChild_concat source name]
    simp only [Bool.true_eq_false, not_true_eq_false, if_false,
      lastName_concat, hlex, if_true, hisd, execCmd]
    unfold rmdirOp
    rw [hls]
    simp [hrm]
  · rw [getReal_setReal_frame fs target _ h1 h2]
    exact hL

/-- Witness: C5 at the concrete state `c5bFs`. -/
theorem C5_removal_dereferences_but_spares_target_witness :
    lstatNode c5bFs (["t"] ++ ["a"]) = some (.link ["d"] true) ∧
    isdir c5bFs (["t"] ++ ["a"]) = true ∧
    onDeleted ["s"] ["t"] c5bFs ⟨["s"] ++ ["a"], true⟩ =
      (setReal c5bFs ["t"] (.dir (FSTree.eraseChild [("a", .link ["d"] true)] "a")),
        ["Removed: " ++ "a"], [Cmd.rmDir (["t"] ++ ["a"])]) ∧
    (setReal c5bFs ["t"]
      (.dir (FSTree.eraseChild [("a", .link ["d"] true)] "a"))).getReal ["d"] =
      some (.dir [("z", .file)]) :=
  C5_removal_dereferences_but_spares_target c5bFs ["s"] ["t"] ["d"]
    [("a", .link ["d"] true)] [("z", .file)] "a" rfl rfl rfl
    (by decide) (by decide)

/-- Counterexample to the literal C5: in `c5Fs` the target entry `t\\a` is a
*file*-type link (its own, non-dereferenced type) pointing at a real
directory; the Deleted handler nevertheless chooses the directory-removal
command — `os.path.isdir` followed the link — and the removal then fails,
leaving the entry in place while still reporting "Removed". -/
theorem C5_choice_dereferences_link :
    lstatNode c5Fs ["t", "a"] = some (.link ["d"] false) ∧
    isdir c5Fs ["t", "a"] = true ∧
    onDeleted ["s"] ["t"] c5Fs ⟨["s", "a"], false⟩ =
      (c5Fs, ["Removed: a"], [Cmd.rmDir ["t", "a"]]) := by
  refine ⟨?_, ?_, ?_⟩
  · simp [lstatNode, canon, canonAux, MAX_HOPS, c5Fs, FSTree.lookupChild,
      FSTree.getReal]
  · simp [isdir, statNode, canon, canonAux, MAX_HOPS, c5Fs,
      FSTree.lookupChild, FSTree.getReal, isDirNode]
  · simp [onDeleted, isDirectChild, eqCI, lastName, lexists, isdir, islink,
      lstatNode, statNode, canon, canonAux, MAX_HOPS, c5Fs, execCmd, delOp,
      rmdirOp, removeEntry, modifyReal, FSTree.lookupChild, FSTree.setChild,
      FSTree.eraseChild, FSTree.getReal, isDirNode, isLinkNode]


/-! ## C6: the reconciliation pass -/

theorem mSC_count_missing :
    ∀ (scs : List (String × FSTree)) (sp : FPath)
      (tcs : List (String × FSTree)) (n : String) (c : FSTree),
      (scs.map (·.1)).Nodup →
      FSTree.lookupChild scs n = some c →
      FSTree.lookupChild tcs n = none →
      1 ≤ (mergeSpecChildren sp scs tcs).2 := by
  intro scs
  induction scs with
  | nil =>
    intro sp tcs n c _ hlk _
    simp [FSTree.lookupChild] at hlk
  | cons hd rest ih =>
    obtain ⟨m, cm⟩ := hd
    intro sp tcs n c hnd hlk htn
    simp only [List.map_cons, List.nodup_cons] at hnd
    obtain ⟨hm_rest, hnd_rest⟩ := hnd
    simp only [FSTree.lookupChild] at hlk
    unfold mergeSpecChildren
    by_cases hmn : m = n
    · subst hmn
      rw [htn]
      dsimp only
      omega
    · rw [if_neg hmn] at hlk
      cases hlkTm : FSTree.lookupChild tcs m with
      | none =>
        dsimp only
        omega
      | some tcm =>
        dsimp only
        by_cases hdd : (isDirNode cm && isDirNode tcm) = true
        · rw [if_pos hdd]
          dsimp only
          have := ih sp (FSTree.setChild tcs m (mergeSpec (sp ++ [m]) cm tcm).1)
            n c hnd_rest hlk
            (by rw [FSTree.lookupChild_setChild_ne tcs (fun hh => hmn hh.symm) _]
                exact htn)
          omega
        · rw [if_neg hdd]
          exact ih sp tcs n c hnd_rest hlk htn

theorem mSC_lookup_missing :
    ∀ (scs : List (String × FSTree)) (sp : FPath)
      (tcs : List (String × FSTree)) (n : String) (c : FSTree),
      (scs.map (·.1)).Nodup →
      FSTree.lookupChild scs n = some c →
      FSTree.lookupChild tcs n = none →
      FSTree.lookupChild (mergeSpecChildren sp scs tcs).1 n =
        some (.link (sp ++ [n]) (isDirNode c)) := by
  intro scs
  induction scs with
  | nil =>
    intro sp tcs n c _ hlk _
    simp [FSTree.lookupChild] at hlk
  | cons hd rest ih =>
    obtain ⟨m, cm⟩ := hd
    intro sp tcs n c hnd hlk htn
    simp only [List.map_cons, List.nodup_cons] at hnd
    obtain ⟨hm_rest, hnd_rest⟩ := hnd
    simp only [FSTree.lookupChild] at hlk
    unfold mergeSpecChildren
    by_cases hmn : m = n
    · subst hmn
      rw [if_pos rfl] at hlk
      cases hlk
      rw [htn]
      dsimp only
      rw [mSC_frame rest sp _ m hm_rest]
      rw [FSTree.lookupChild_append_none htn]
      simp [FSTree.lookupChild]
    · rw [if_neg hmn] at hlk
      cases hlkTm : FSTree.lookupChild tcs m with
      | none =>
        dsimp only
        apply ih sp _ n c hnd_rest hlk
        rw [FSTree.lookupChild_append_none htn]
        have hnm : ¬ (m = n) := hmn
        simp [FSTree.lookupChild, hnm]
      | some tcm =>
        dsimp only
        by_cases hdd : (isDirNode cm && isDirNode tcm) = true
        · rw [if_pos hdd]
          dsimp only
          apply ih sp _ n c hnd_rest hlk
          rw [FSTree.lookupChild_setChild_ne tcs (fun hh => hmn hh.symm) _]
          exact htn
        · rw [if_neg hdd]
          exact ih sp tcs n c hnd_rest hlk htn

theorem pushLog_logs_getLast (c : LinkConfiguration) (ts msg : String) :
    (pushLog c ts msg).logs.getLast? = some (fmtLog ts msg) := by
  unfold pushLog
  dsimp only
  by_cases h : 50 < (c.logs ++ [fmtLog ts msg]).length
  · rw [if_pos h]
    cases hc : c.logs with
    | nil => rw [hc] at h; simp at h
    | cons x xs =>
      simp only [List.cons_append, List.drop_one, List.tail_cons]
      simp [List.getLast?_concat]
  · rw [if_neg h]
    simp [List.getLast?_concat]

/-- C6: one reconciliation pass treats a configuration exactly by its state:
an inactive configuration, or one whose interval has not elapsed, is left
untouched (same record, same filesystem); an active configuration whose
interval has elapsed gets `last_rescan := now` and a merge of its source into
its target — in particular, when exactly one source entry is missing from
the target (e.g. a manually deleted link), the pass recreates the link and
logs a restore count of at least 1. -/
theorem C6_rescan_pass_behaviour
    (fuel : Nat) (now : Int) (ts : String) (links : List LinkConfiguration)
    (fs : FSTree) :
    (∀ l : LinkConfiguration, l.is_active = false →
      rescanLinkStep fuel now ts links fs l = some (l, fs)) ∧
    (∀ l : LinkConfiguration, now - l.last_rescan < l.rescan_interval →
      rescanLinkStep fuel now ts links fs l = some (l, fs)) ∧
    (∀ (l : LinkConfiguration) (sp : FPath)
      (scs tcs : List (String × FSTree)) (n : String) (c : FSTree),
      l.is_active = true →
      l.rescan_interval ≤ now - l.last_rescan →
      l.sources.map (·.1) = [sp] →
      (links.find? (·.id == l.id)).isSome = true →
      fs.getReal sp = some (.dir scs) →
      fs.getReal l.target_path = some (.dir tcs) →
      linkFreeChildren scs = true →
      (scs.map (·.1)).Nodup →
      wfChildren scs = true →
      linkFreeChildren tcs = true →
      ¬ sp <+: l.target_path →
      ¬ l.target_path <+: sp →
      depth (.dir scs) ≤ fuel →
      FSTree.lookupChild scs n = some c →
      FSTree.lookupChild tcs n = none →
      ∃ (l2 : LinkConfiguration) (fs2 : FSTree) (cnt : Nat),
        rescanLinkStep fuel now ts links fs l = some (l2, fs2) ∧
        l2.last_rescan = now ∧
        1 ≤ cnt ∧
        fs2.getReal (l.target_path ++ [n]) =
          some (.link (sp ++ [n]) (isDirNode c)) ∧
        l2.logs.getLast? = some (fmtLog ts (restoreMsg cnt))) := by
  refine ⟨?_, ?_, ?_⟩
  · intro l hl
    unfold rescanLinkStep
    rw [hl]
    simp
  · intro l hl
    by_cases hact : l.is_active = true
    · unfold rescanLinkStep
      rw [hact]
      simp only [not_true_eq_false, if_false]
      rw [if_pos hl]
    · unfold rescanLinkStep
      rw [if_pos (by simpa using hact)]
  · intro l sp scs tcs n c hact hel hsrc hfind hS hT hlfS hnd hwfS hlfT hst
      hts hd hlkS hlkT
    unfold rescanLinkStep
    rw [hact]
    simp only [not_true_eq_false, if_false]
    rw [if_neg (by omega)]
    rw [hsrc]
    unfold rescanSources
    dsimp only
    have hfind2 : (links.find? (·.id == l.id)).isNone = false := by
      rcases Option.isSome_iff_exists.mp hfind with ⟨l0, hl0⟩
      simp [hl0]
    rw [hfind2]
    simp only [Bool.false_eq_true, if_false]
    rw [merge_run1 fuel fs sp l.target_path scs tcs hS hT hlfS hnd hwfS hlfT
      hst hts hd]
    dsimp only
    simp only [List.foldl_nil]
    have hcnt := mSC_count_missing scs sp tcs n c hnd hlkS hlkT
    rw [if_pos (by omega : 0 < (mergeSpecChildren sp scs tcs).2)]
    unfold rescanSources
    refine ⟨_, _, (mergeSpecChildren sp scs tcs).2, rfl, rfl, hcnt, ?_, ?_⟩
    · rw [FSTree.getReal_append, getReal_setReal_self hT _]
      simp only [Option.some_bind, FSTree.getReal]
      rw [mSC_lookup_missing scs sp tcs n c hnd hlkS hlkT]
    · exact pushLog_logs_getLast _ ts _

/-- Witness: C6's restore branch at the concrete configuration `c6link` on
`wFs` with the target missing the link for `a`. -/
theorem C6_rescan_pass_behaviour_witness :
    ∃ (l2 : LinkConfiguration) (fs2 : FSTree) (cnt : Nat),
      rescanLinkStep 2 10 "ts" [c6link] wFs c6link = some (l2, fs2) ∧
      l2.last_rescan = 10 ∧
      1 ≤ cnt ∧
      fs2.getReal (c6link.target_path ++ ["a"]) =
        some (.link (["s"] ++ ["a"]) (isDirNode .file)) ∧
      l2.logs.getLast? = some (fmtLog "ts" (restoreMsg cnt)) :=
  (C6_rescan_pass_behaviour 2 10 "ts" [c6link] wFs).2.2 c6link ["s"]
    [("a", .file)] [] "a" .file rfl (by decide) rfl (by decide) rfl rfl rfl
    (by simp) (by simp [wfChildren, wfTree]) rfl (by decide) (by decide)
    (by simp [depth, depthChildren]) rfl rfl


/-! ## C7: duplicate targets are rejected without mutation -/

/-- C7: choosing as target a directory that another configuration (here an
active one) already uses — compared case-insensitively after normalisation —
is rejected at the point of the call and mutates nothing: the whole
configuration list, and in particular the requesting configuration's
`target_path`, is returned unchanged. -/
theorem C7_duplicate_target_rejected
    (links : List LinkConfiguration) (selectedId : String) (directory : FPath)
    (l' : LinkConfiguration)
    (hmem : l' ∈ links)
    (hne : (l'.id == selectedId) = false)
    (hnem : l'.target_path.isEmpty = false)
    (heq : (normcase l'.target_path == normcase directory) = true)
    (_hact : l'.is_active = true) :
    browseTarget links selectedId directory = some links := by
  unfold browseTarget
  rw [if_pos]
  exact List.any_eq_true.mpr ⟨l', hmem, by simp [hne, hnem, heq]⟩

/-- Witness: C7 at the concrete pair `c7a` (active, owns `t`), `c7b`
(requesting the same target `t`). -/
theorem C7_duplicate_target_rejected_witness :
    browseTarget [c7a, c7b] "B" ["t"] = some [c7a, c7b] :=
  C7_duplicate_target_rejected [c7a, c7b] "B" ["t"] c7a
    (by simp) (by decide) (by decide) (by simp [c7a]) rfl

/-! ## C8: the per-configuration log is a 50-entry FIFO -/

/-- C8: the status log is appended at the tail and bounded at 50 entries with
the oldest evicted first: a bounded log stays bounded, a non-full log grows
by the appended entry in order, a full log drops exactly its head; and
`update_link_status` applies exactly this to the addressed configuration,
leaving every other configuration alone. -/
theorem C8_log_fifo_bounded (c : LinkConfiguration) (ts msg : String) :
    (c.logs.length ≤ 50 → (pushLog c ts msg).logs.length ≤ 50) ∧
    (c.logs.length < 50 →
      (pushLog c ts msg).logs = c.logs ++ [fmtLog ts msg]) ∧
    (c.logs.length = 50 →
      (pushLog c ts msg).logs = c.logs.drop 1 ++ [fmtLog ts msg] ∧
      (pushLog c ts msg).logs.length = 50) ∧
    (∀ (links : List LinkConfiguration) (lid : String),
      links.any (·.id == lid) = true →
      updateLinkStatus links lid ts msg =
        links.map fun l => if l.id == lid then pushLog l ts msg else l) := by
  refine ⟨?_, ?_, ?_, ?_⟩
  · intro hle
    unfold pushLog
    dsimp only
    by_cases h : 50 < (c.logs ++ [fmtLog ts msg]).length
    · rw [if_pos h]
      simp only [List.length_drop, List.length_append, List.length_cons,
        List.length_nil]
      omega
    · rw [if_neg h]
      simp only [List.length_append, List.length_cons, List.length_nil] at h ⊢
      omega
  · intro hlt
    unfold pushLog
    dsimp only
    rw [if_neg (by simp; omega)]
  · intro heq
    unfold pushLog
    dsimp only
    rw [if_pos (by simp [heq])]
    constructor
    · rw [List.drop_append_of_le_length (by omega)]
    · simp only [List.length_append, List.length_drop, List.length_append,
        List.length_cons, List.length_nil]
      omega
  · intro links lid hany
    unfold updateLinkStatus
    rw [if_pos hany]

/-- Witness: C8's eviction case at the full log `c8link`. -/
theorem C8_log_fifo_bounded_witness :
    (pushLog c8link "ts" "m").logs =
      c8link.logs.drop 1 ++ [fmtLog "ts" "m"] ∧
    (pushLog c8link "ts" "m").logs.length = 50 :=
  (C8_log_fifo_bounded c8link "ts" "m").2.2.1 (by simp [c8link])


/-! ## C9: observers for every source of an active configuration -/

theorem foldl_pushLog_fields :
    ∀ (msgs : List String) (l : LinkConfiguration) (ts : String),
      (msgs.foldl (fun acc m => pushLog acc ts m) l).sources = l.sources ∧
      (msgs.foldl (fun acc m => pushLog acc ts m) l).id = l.id := by
  intro msgs
  induction msgs with
  | nil => intro l ts; exact ⟨rfl, rfl⟩
  | cons m rest ih =>
    intro l ts
    simp only [List.foldl_cons]
    exact ih (pushLog l ts m) ts

theorem dictSet_mem :
    ∀ (m : List (FPath × Option Unit)) (k : FPath) (v : Option Unit)
      (kv : FPath × Option Unit), kv ∈ dictSet m k v →
      kv = (k, v) ∨ (kv ∈ m ∧ kv.1 ≠ k) := by
  intro m k v kv hkv
  unfold dictSet at hkv
  by_cases hany : m.any (·.1 == k) = true
  · rw [if_pos hany] at hkv
    obtain ⟨kv0, hkv0, hf⟩ := List.mem_map.mp hkv
    by_cases hk : (kv0.1 == k) = true
    · rw [if_pos hk] at hf
      exact Or.inl hf.symm
    · rw [if_neg hk] at hf
      refine Or.inr ⟨hf ▸ hkv0, ?_⟩
      rw [← hf]
      simpa using hk
  · rw [if_neg hany] at hkv
    rcases List.mem_append.mp hkv with h | h
    · refine Or.inr ⟨h, ?_⟩
      intro hh
      apply hany
      exact List.any_eq_true.mpr ⟨kv, h, by simp [hh]⟩
    · simp only [List.mem_singleton] at h
      exact Or.inl h

theorem createSymlinks_props {fuel : Nat} {fs : FSTree} {source target : FPath}
    {fs1 : FSTree} {msgs : List String} {obs : Option Unit}
    (hex : existsPath fs source = true)
    (h : createSymlinksForSource fuel fs source target =
      some (fs1, msgs, obs)) :
    obs = some () ∧ Ext fs fs1 := by
  unfold createSymlinksForSource at h
  rw [hex] at h
  simp only [not_true_eq_false, if_false] at h
  cases hstep : (if existsPath fs target = true then some fs
      else makedirs fs target) with
  | none => rw [hstep] at h; simp at h
  | some fs0 =>
    rw [hstep] at h
    dsimp only at h
    have hext0 : Ext fs fs0 := by
      by_cases ht : existsPath fs target = true
      · rw [if_pos ht] at hstep
        cases hstep
        exact Ext_refl fs
      · rw [if_neg ht] at hstep
        exact Ext_makedirs hstep
    cases hm : mergeFuel fuel fs0 source target with
    | none => rw [hm] at h; simp at h
    | some r =>
      rw [hm] at h
      cases r with
      | error e => simp at h
      | ok x =>
        obtain ⟨fs2, n, ms⟩ := x
        have hext2 : Ext fs0 fs2 := Ext_mergeFuel fuel fs0 source target _ hm
        simp only [Option.some.injEq, Prod.mk.injEq] at h
        obtain ⟨h1, _, h3⟩ := h
        subst h1
        refine ⟨h3.symm, Ext_trans _ _ _ hext0 hext2⟩

theorem startSources_observers :
    ∀ (srcs : List FPath) (fuel : Nat) (ts : String) (target : FPath)
      (fs : FSTree) (l : LinkConfiguration) (fs2 : FSTree)
      (l2 : LinkConfiguration),
      startSources fuel ts target fs l srcs = some (fs2, l2) →
      (∀ src ∈ srcs, existsPath fs src = true) →
      (∀ kv ∈ l.sources, kv.2 = some () ∨ kv.1 ∈ srcs) →
      (∀ kv ∈ l2.sources, kv.2 = some ()) ∧ l2.id = l.id := by
  intro srcs
  induction srcs with
  | nil =>
    intro fuel ts target fs l fs2 l2 h hex hs
    unfold startSources at h
    simp only [Option.some.injEq, Prod.mk.injEq] at h
    obtain ⟨_, h2⟩ := h
    subst h2
    refine ⟨?_, rfl⟩
    intro kv hkv
    rcases hs kv hkv with h | h
    · exact h
    · simp at h
  | cons src rest ih =>
    intro fuel ts target fs l fs2 l2 h hex hs
    unfold startSources at h
    cases hc : createSymlinksForSource fuel fs src target with
    | none => rw [hc] at h; simp at h
    | some trip =>
      obtain ⟨fs1, msgs, obs⟩ := trip
      rw [hc] at h
      obtain ⟨hobs, hext⟩ := createSymlinks_props (hex src (by simp)) hc
      subst hobs
      have h2 : startSources fuel ts target fs1
          { msgs.foldl (fun acc m => pushLog acc ts m) l with
            sources := dictSet
              (msgs.foldl (fun acc m => pushLog acc ts m) l).sources src
              (some ()) } rest = some (fs2, l2) := h
      obtain ⟨hfold_src, hfold_id⟩ := foldl_pushLog_fields msgs l ts
      have hres := ih fuel ts target fs1 _ fs2 l2 h2
        (fun s hsm => Ext_existsPath hext (hex s (List.mem_cons_of_mem _ hsm)))
        (by
          intro kv hkv
          simp only at hkv
          rcases dictSet_mem _ src (some ()) kv hkv with hh | ⟨hmem, hne⟩
          · subst hh
            exact Or.inl rfl
          · rw [hfold_src] at hmem
            rcases hs kv hmem with hh | hh
            · exact Or.inl hh
            · rcases List.mem_cons.mp hh with hh2 | hh2
              · exact absurd hh2 hne
              · exact Or.inr hh2)
      refine ⟨hres.1, ?_⟩
      rw [hres.2]
      exact hfold_id

/-- C9: corrected — the claimed invariant "active implies a Watch Session per
source" is *not* maintained by `add_source` on an active configuration (see
the counterexample: the source is inserted with no observer and the call dies
on a missing attribute).  What does hold: a successful `start_link` on an
inactive configuration whose sources all exist activates it with a live
observer stored for every source. -/
theorem C9_start_link_creates_observers
    (fuel : Nat) (links : List LinkConfiguration) (selectedId : String)
    (fs : FSTree) (ts : String) (links2 : List LinkConfiguration)
    (fs2 : FSTree) (l : LinkConfiguration)
    (hne : selectedId ≠ "")
    (hfind : links.find? (·.id == selectedId) = some l)
    (htgt : l.target_path.isEmpty = false)
    (hsrcs : l.sources.isEmpty = false)
    (hact : l.is_active = false)
    (hex : ∀ kv ∈ l.sources, existsPath fs kv.1 = true)
    (hrun : startLink fuel links selectedId fs ts = some (links2, fs2)) :
    ∀ l2 ∈ links2, l2.id = selectedId →
      l2.is_active = true ∧ ∀ kv ∈ l2.sources, kv.2 = some () := by
  unfold startLink at hrun
  rw [if_neg hne, hfind] at hrun
  simp only [htgt, hsrcs, hact, Bool.false_eq_true, if_false] at hrun
  cases hss : startSources fuel ts (pushLog l ts "⏳ Starting...").target_path
      fs (pushLog l ts "⏳ Starting...")
      ((pushLog l ts "⏳ Starting...").sources.map (·.1)) with
  | none => rw [hss] at hrun; simp at hrun
  | some pair =>
    obtain ⟨fs', link1⟩ := pair
    rw [hss] at hrun
    have hobs := startSources_observers _ fuel ts
      (pushLog l ts "⏳ Starting...").target_path fs _ fs' link1 hss
      (by
        intro src hsm
        obtain ⟨kv, hkv, hkv1⟩ := List.mem_map.mp hsm
        exact hkv1 ▸ hex kv hkv)
      (by
        intro kv hkv
        exact Or.inr (List.mem_map.mpr ⟨kv, hkv, rfl⟩))
    simp only [Option.some.injEq, Prod.mk.injEq] at hrun
    obtain ⟨hl2, _⟩ := hrun
    subst hl2
    intro l2 hmem hid
    obtain ⟨l0, hl0, hfl0⟩ := List.mem_map.mp hmem
    by_cases hcond : (l0.id == selectedId) = true
    · rw [if_pos hcond] at hfl0
      subst hfl0
      exact ⟨rfl, hobs.1⟩
    · rw [if_neg hcond] at hfl0
      subst hfl0
      exact absurd (by simp [hid]) hcond

/-- Witness: starting `c9off` (inactive, one existing source) on `wFs`
activates it with an observer stored for its source. -/
theorem C9_start_link_creates_observers_witness :
    c9res.is_active = true ∧ ∀ kv ∈ c9res.sources, kv.2 = some () :=
  C9_start_link_creates_observers 2 [c9off] "A" wFs "ts" [c9res]
    (.dir [("s", .dir [("a", .file)]), ("t", .dir [("a", .link ["s","a"] false)])])
    c9off (by decide) (by simp [c9off]) (by decide) (by decide) rfl
    (by
      intro kv hkv
      simp only [c9off, List.mem_singleton] at hkv
      subst hkv
      simp [existsPath, statNode, canon, canonAux, MAX_HOPS, wFs,
        FSTree.lookupChild, FSTree.getReal, isLinkNode])
    (by
      simp [startLink, startSources, createSymlinksForSource, mergeFuel,
        mergeItems, pushLog, dictSet, fmtLog, c9off, wFs, canon, canonAux,
        lstatNode, statNode, lexists, existsPath, isdir, islink, readlink,
        listdir, modifyReal, mklinkOp, execCmd, makedirs, makedirsAux,
        MAX_HOPS, FSTree.lookupChild, FSTree.setChild, FSTree.getReal,
        isDirNode, isLinkNode, lastName, pathText, c9res]
      exact ⟨rfl, rfl, rfl⟩)
    c9res (by simp) rfl

/-- Counterexample to the literal C9: adding a source to the *active*
configuration `c9link` inserts the source with no observer and the call does
not complete (the `False` flag models the AttributeError raised by the
reference to the non-existent `self.update_status`), leaving an active
configuration with an unwatched source. -/
theorem C9_add_source_to_active_loses_observer :
    addSource [c9link] "A" ["u", "v"] =
      some ([{ c9link with
        sources := [(["s"], some ()), (["u", "v"], none)] }], false) ∧
    ({ c9link with
        sources := [(["s"], some ()), (["u", "v"], none)] }).is_active =
      true := by
  have h1 : ¬ normcase ["u", "v"] = normcase ["t"] := by
    intro hh
    have := congrArg List.length hh
    simp [normcase] at this
  have h2 : ¬ normcase ["s"] = normcase ["u", "v"] := by
    intro hh
    have := congrArg List.length hh
    simp [normcase] at this
  constructor
  · simp [addSource, c9link, h1, h2]
  · rfl


/-! ## C10: serialisation round-trip -/

theorem foldl_dictSet_nodup :
    ∀ (ks : List FPath) (acc : List (FPath × Option Unit)),
      (∀ k ∈ ks, acc.any (·.1 == k) = false) → ks.Nodup →
      ks.foldl (fun acc s => dictSet acc s none) acc =
        acc ++ ks.map (fun s => (s, none)) := by
  intro ks
  induction ks with
  | nil => intro acc _ _; simp
  | cons k rest ih =>
    intro acc hfree hnd
    simp only [List.nodup_cons] at hnd
    simp only [List.foldl_cons]
    have hk : acc.any (·.1 == k) = false := hfree k (by simp)
    have hstep : dictSet acc k none = acc ++ [(k, none)] := by
      unfold dictSet
      rw [if_neg (by simp [hk])]
    rw [hstep]
    rw [ih (acc ++ [(k, none)])
      (by
        intro k2 hk2
        rw [List.any_append]
        simp only [Bool.or_eq_false_iff]
        refine ⟨hfree k2 (by simp [hk2]), ?_⟩
        simp only [List.any_cons, List.any_nil, Bool.or_false]
        exact beq_eq_false_iff_ne.mpr (fun hh => hnd.1 (hh ▸ hk2)))
      hnd.2]
    simp

/-- C10: `from_dict ∘ to_dict` restores the identifying fields — id, name,
target path, source-path list (in order, observers reset), activity flag and
rescan interval — and keeps the last 50 log entries; loading an empty record
yields the documented defaults. -/
theorem C10_roundtrip (freshId : String) (c : LinkConfiguration)
    (hid : ¬ c.id = "") (hnd : (c.sources.map (·.1)).Nodup) :
    (LinkConfiguration.from_dict freshId (LinkConfiguration.to_dict c)).id =
      c.id ∧
    (LinkConfiguration.from_dict freshId (LinkConfiguration.to_dict c)).name =
      c.name ∧
    (LinkConfiguration.from_dict freshId
      (LinkConfiguration.to_dict c)).target_path = c.target_path ∧
    (LinkConfiguration.from_dict freshId
      (LinkConfiguration.to_dict c)).sources.map (·.1) =
      c.sources.map (·.1) ∧
    (LinkConfiguration.from_dict freshId
      (LinkConfiguration.to_dict c)).is_active = c.is_active ∧
    (LinkConfiguration.from_dict freshId
      (LinkConfiguration.to_dict c)).rescan_interval = c.rescan_interval ∧
    (LinkConfiguration.from_dict freshId (LinkConfiguration.to_dict c)).logs =
      lastN 50 c.logs ∧
    LinkConfiguration.from_dict freshId
      { id := none, name := none, target_path := none, sources := none,
        is_active := none, logs := none, rescan_interval := none } =
      { id := freshId, name := "New Link", target_path := [], sources := [],
        is_active := false, status := "Not configured", logs := [],
        rescan_interval := 10, last_rescan := 0 } := by
  have hsources :
      (LinkConfiguration.from_dict freshId
        (LinkConfiguration.to_dict c)).sources =
      (c.sources.map (·.1)).map (fun s => (s, none)) := by
    unfold LinkConfiguration.from_dict LinkConfiguration.to_dict
    dsimp only
    simp only [Option.getD_some]
    rw [foldl_dictSet_nodup (c.sources.map (·.1)) [] (by simp) hnd]
    simp
  refine ⟨?_, ?_, ?_, ?_, ?_, ?_, ?_, ?_⟩
  · unfold LinkConfiguration.from_dict LinkConfiguration.to_dict
      mkLinkConfiguration
    dsimp only
    rw [if_neg hid]
  · rfl
  · rfl
  · rw [hsources]
    simp
  · rfl
  · rfl
  · rfl
  · rfl

/-- Witness: C10 at the populated configuration `c10c`. -/
theorem C10_roundtrip_witness :
    (LinkConfiguration.from_dict "F" (LinkConfiguration.to_dict c10c)).id =
      c10c.id ∧
    (LinkConfiguration.from_dict "F" (LinkConfiguration.to_dict c10c)).name =
      c10c.name ∧
    (LinkConfiguration.from_dict "F"
      (LinkConfiguration.to_dict c10c)).target_path = c10c.target_path ∧
    (LinkConfiguration.from_dict "F"
      (LinkConfiguration.to_dict c10c)).sources.map (·.1) =
      c10c.sources.map (·.1) ∧
    (LinkConfiguration.from_dict "F"
      (LinkConfiguration.to_dict c10c)).is_active = c10c.is_active ∧
    (LinkConfiguration.from_dict "F"
      (LinkConfiguration.to_dict c10c)).rescan_interval =
      c10c.rescan_interval ∧
    (LinkConfiguration.from_dict "F" (LinkConfiguration.to_dict c10c)).logs =
      lastN 50 c10c.logs ∧
    LinkConfiguration.from_dict "F"
      { id := none, name := none, target_path := none, sources := none,
        is_active := none, logs := none, rescan_interval := none } =
      { id := "F", name := "New Link", target_path := [], sources := [],
        is_active := false, status := "Not configured", logs := [],
        rescan_interval := 10, last_rescan := 0 } :=
  C10_roundtrip "F" c10c (by decide) (by simp [c10c])


/-! ## C4: only direct children are handled -/

theorem isDirectChild_false_of_deep {source p : FPath}
    (h : source.length + 2 ≤ p.length) : isDirectChild source p = false := by
  simp only [isDirectChild, Bool.and_eq_false_iff]
  left
  simp only [beq_eq_false_iff_ne, ne_eq]
  omega

/-- C4: the Watch Session reacts only to direct children of the watched
source root.  An event whose path (for a move: both paths) lies two or more
levels below the root makes every handler — created, deleted, modified,
moved — a no-op: same filesystem, no status messages, no shell commands. -/
theorem C4_deep_events_are_ignored
    (fuel : Nat) (source target : FPath) (fs : FSTree)
    (ev : FsEvent) (mev : MovedEvent)
    (hdeep : source.length + 2 ≤ ev.src_path.length)
    (hdeep1 : source.length + 2 ≤ mev.src_path.length)
    (hdeep2 : source.length + 2 ≤ mev.dest_path.length) :
    onCreated fuel source target fs ev = some (fs, [], []) ∧
    onDeleted source target fs ev = (fs, [], []) ∧
    onModified source target fs ev = (fs, [], []) ∧
    onMoved fuel source target fs mev = some (fs, [], []) := by
  have h1 := isDirectChild_false_of_deep hdeep
  have h2 := isDirectChild_false_of_deep hdeep1
  have h3 := isDirectChild_false_of_deep hdeep2
  refine ⟨?_, ?_, ?_, ?_⟩
  · simp [onCreated, h1]
  · simp [onDeleted, h1]
  · simp [onModified, h1]
  · simp [onMoved, h2, h3]

/-- Witness: C4 at a concrete two-levels-deep event. -/
theorem C4_deep_events_are_ignored_witness :
    onCreated 1 ["s"] ["t"] wFs ⟨["s", "x", "y"], false⟩ = some (wFs, [], []) ∧
    onDeleted ["s"] ["t"] wFs ⟨["s", "x", "y"], false⟩ = (wFs, [], []) ∧
    onModified ["s"] ["t"] wFs ⟨["s", "x", "y"], false⟩ = (wFs, [], []) ∧
    onMoved 1 ["s"] ["t"] wFs ⟨["s", "x", "y"], ["s", "x", "z"], false⟩ =
      some (wFs, [], []) :=
  C4_deep_events_are_ignored 1 ["s"] ["t"] wFs
    ⟨["s", "x", "y"], false⟩ ⟨["s", "x", "y"], ["s", "x", "z"], false⟩
    (by simp) (by simp) (by simp)

end SymSync
